import Mathlib

/-!
Verification of the BER tag-length-value codec (src/tag.rs, src/err.rs,
src/util.rs) against its specification.

The Rust source is shallowly embedded: bytes are `Nat` values (< 256 on real
inputs), the position-tracked reader (`util.rs` TrackedRead) is a list of
remaining input bytes together with the count of bytes consumed so far, and
the recursive decoder is written with an explicit fuel parameter (the Rust
recursion terminates because every TLV header consumes input bytes; the
public entry point supplies fuel exceeding that bound, see `Tag.read`).
A Rust `panic!` (an `unwrap` of `None`) is a distinct outcome `panicked`,
separate from returning an `err::Error`.
-/

namespace Ber

/-- Universal tag types, src/tag.rs `enum Type` (renamed `Ty`: `Type` is
reserved in Lean).  Discriminant values are given by `Ty.toNat`; note 14 and
15 are not assigned. -/
inductive Ty where
  | Eoc | Boolean | Integer | BitString | OctetString | Null
  | ObjectIdentifier | ObjectDescriptor | External | Real | Enumerated
  | EmbeddedPdv | Utf8String | RelativeOid | Sequence | Set
  | NumericString | PrintableString | T61String | VideotexString
  | Ia5String | UtcTime | GeneralizedTime | GraphicString
  | VisibleString | GeneralString | UniversalString | CharacterString
  | BmpString
deriving DecidableEq

/-- The discriminant of each `Type` variant, as written in src/tag.rs. -/
def Ty.toNat : Ty → Nat
  | .Eoc => 0 | .Boolean => 1 | .Integer => 2 | .BitString => 3
  | .OctetString => 4 | .Null => 5 | .ObjectIdentifier => 6
  | .ObjectDescriptor => 7 | .External => 8 | .Real => 9
  | .Enumerated => 10 | .EmbeddedPdv => 11 | .Utf8String => 12
  | .RelativeOid => 13 | .Sequence => 16 | .Set => 17
  | .NumericString => 18 | .PrintableString => 19 | .T61String => 20
  | .VideotexString => 21 | .Ia5String => 22 | .UtcTime => 23
  | .GeneralizedTime => 24 | .GraphicString => 25 | .VisibleString => 26
  | .GeneralString => 27 | .UniversalString => 28 | .CharacterString => 29
  | .BmpString => 30

/-- `FromPrimitive::from_i8` for `Type` (derived in src/tag.rs): `some` on a
defined discriminant, `none` otherwise (in particular on 14 and 15). -/
def Ty.fromPrim : Nat → Option Ty
  | 0 => some .Eoc | 1 => some .Boolean | 2 => some .Integer
  | 3 => some .BitString | 4 => some .OctetString | 5 => some .Null
  | 6 => some .ObjectIdentifier | 7 => some .ObjectDescriptor
  | 8 => some .External | 9 => some .Real | 10 => some .Enumerated
  | 11 => some .EmbeddedPdv | 12 => some .Utf8String
  | 13 => some .RelativeOid | 16 => some .Sequence | 17 => some .Set
  | 18 => some .NumericString | 19 => some .PrintableString
  | 20 => some .T61String | 21 => some .VideotexString
  | 22 => some .Ia5String | 23 => some .UtcTime
  | 24 => some .GeneralizedTime | 25 => some .GraphicString
  | 26 => some .VisibleString | 27 => some .GeneralString
  | 28 => some .UniversalString | 29 => some .CharacterString
  | 30 => some .BmpString
  | _ => none

/-- Tag number, src/tag.rs `enum Number`.  The non-universal payloads are
`i64` in the source; they are embedded as `Int`. -/
inductive Number where
  | Universal (t : Ty)
  | Application (n : Int)
  | ContextSpecific (n : Int)
  | Private (n : Int)
deriving DecidableEq

/-- Identifier class, src/tag.rs `enum Class`, with its discriminants. -/
inductive Class where
  | Universal | Application | ContextSpecific | Private
deriving DecidableEq

/-- Discriminant of `Class` as declared in the source. -/
def Class.toNat : Class → Nat
  | .Universal => 0 | .Application => 1 | .ContextSpecific => 2
  | .Private => 3

/-- `FromPrimitive::from_u8` for `Class`.  In `read_identifiers` the argument
is `(b & 0xC0) >> 6`, which is always `0..3`, so the source's `unwrap` cannot
fail; the catch-all arm is unreachable on those arguments. -/
def Class.fromPrim : Nat → Class
  | 0 => .Universal | 1 => .Application | 2 => .ContextSpecific
  | _ => .Private

/-- Primitive/constructed flag, src/tag.rs `enum Flavor`. -/
inductive Flavor where
  | Primitive | Constructed
deriving DecidableEq

/-- Discriminant of `Flavor` as declared in the source. -/
def Flavor.toNat : Flavor → Nat
  | .Primitive => 0 | .Constructed => 1

/-- `FromPrimitive::from_u8` for `Flavor`; the argument `(b & 0x20) >> 5` is
always `0` or `1`, so the source's `unwrap` cannot fail. -/
def Flavor.fromPrim : Nat → Flavor
  | 0 => .Primitive | _ => .Constructed

/-- Length field, src/tag.rs `enum Length`.  `Some` holds a `u64`, embedded
as `Nat` (decoded values stay below `2 ^ 64`: at most 8 length bytes are
accepted). -/
inductive Length where
  | Indefinite
  | Some (l : Nat)
deriving DecidableEq

/-- Error kinds, src/err.rs `enum Kind`.  `Byteorder` stands for the
byteorder crate's unexpected-end-of-input error raised by `read_u8` on an
exhausted source; its `From` conversion yields offset 0.  `Io` never arises
from the list-backed reader. -/
inductive Kind where
  | InvalidTypeAndFlavor
  | InvalidLength
  | NumberOverflow
  | Byteorder
deriving DecidableEq

/-- src/util.rs `TrackedRead`: a sequential byte source that counts the bytes
consumed.  `input` is the remaining input; `pos` is `read_bytes`, returned by
`tell()`. -/
structure TrackedRead where
  input : List Nat
  pos : Nat
deriving DecidableEq

/-- Outcome of a fallible decoding step.  `ok`/`err` return the reader state
after the step (the source mutates the reader in place; `err` also records
the `err::Error` kind and offset field).  `panicked` models a Rust `panic`
(an `unwrap` of `None`); `fuelOut` is an artifact of the fuel-indexed
embedding and is unreachable when the fuel exceeds the input length. -/
inductive DRes (α : Type) where
  | ok (a : α) (r : TrackedRead)
  | err (kind : Kind) (offset : Nat) (r : TrackedRead)
  | panicked
  | fuelOut
deriving DecidableEq

/-- `read_u8` on the tracked reader: one byte, or the byteorder
end-of-input error (whose `From` conversion carries offset 0). -/
def TrackedRead.readU8 : TrackedRead → DRes Nat
  | ⟨[], p⟩ => .err .Byteorder 0 ⟨[], p⟩
  | ⟨b :: rest, p⟩ => .ok b ⟨rest, p + 1⟩

/-- `tell()` of src/util.rs. -/
def TrackedRead.tell (r : TrackedRead) : Nat := r.pos

/-- One `r.read(&mut buf)` call with a buffer of size `l` against the
list-backed source: it fills the buffer with `min l (input length)` bytes,
leaves the rest of the zero-initialized buffer untouched (`vec![0; l]` in
`read_payload`), never fails, and advances `read_bytes` by the bytes
actually delivered. -/
def TrackedRead.readInto (l : Nat) (r : TrackedRead) : List Nat × TrackedRead :=
  (r.input.take l ++ List.replicate (l - (r.input.take l).length) 0,
   ⟨r.input.drop l, r.pos + (r.input.take l).length⟩)

mutual
/-- src/tag.rs `enum Payload`: raw bytes for a primitive tag, child tags for
a constructed one. -/
inductive Payload where
  | Primitive (v : List Nat)
  | Constructed (children : List Tag)

/-- src/tag.rs `struct Tag`. -/
inductive Tag where
  | mk (number : Number) (offset : Option Nat) (payload : Payload)
end

/-- Field accessor `tag.number`. -/
def Tag.number : Tag → Number
  | .mk n _ _ => n

/-- Field accessor `tag.offset`. -/
def Tag.offset : Tag → Option Nat
  | .mk _ o _ => o

/-- Field accessor `tag.payload`. -/
def Tag.payload : Tag → Payload
  | .mk _ _ p => p

/-- The loop of src/tag.rs `read_extended_number`: `while count < 8` read a
byte, or its low 7 bits into the accumulator at position `7 * count`, and
stop when the byte's high (continuation) bit is clear.  `remaining` is
`8 - count`; the accumulator is `i64` in the source, embedded as `Nat`
(at most eight 7-bit groups are accumulated, so the value stays below
`2 ^ 56` and the `i64` arithmetic never overflows). -/
def read_extended_number_loop : Nat → Nat → Nat → TrackedRead → DRes Nat
  | 0, _, ret, r => .ok ret r
  | remaining + 1, count, ret, r =>
    match r.readU8 with
    | .ok b r1 =>
      let ret := ret ||| ((b &&& 0x7F) <<< (7 * count))
      if b &&& 0x80 = 0 then .ok ret r1
      else read_extended_number_loop remaining (count + 1) ret r1
    | .err k o r1 => .err k o r1
    | .panicked => .panicked
    | .fuelOut => .fuelOut

/-- src/tag.rs `read_extended_number`: continuation-bit 7-bit groups, least
significant group first, at most 8 groups; the loop then exits returning the
accumulated value (no further byte is read and no error is raised). -/
def read_extended_number (r : TrackedRead) : DRes Nat :=
  read_extended_number_loop 8 0 0 r

/-- src/tag.rs `maybe_read_extended_number`: `b` is the 5-bit number field
(`0..31`, an `i8` in the source); `0x1F` escapes to the extended form. -/
def maybe_read_extended_number (b : Nat) (r : TrackedRead) : DRes Nat :=
  if b = 0x1F then read_extended_number r
  else .ok b r

/-- src/tag.rs `read_identifiers`.  The `unwrap`s on class and flavor cannot
fail (their arguments are masked into range); the `unwrap` on
`FromPrimitive::from_i8` for the universal type CAN fail — a 5-bit field of
14 or 15 yields `None` and the source panics, embedded as `panicked`. -/
def read_identifiers (r : TrackedRead) : DRes (Class × Flavor × Number) :=
  match r.readU8 with
  | .ok b r1 =>
    let cls := Class.fromPrim ((b &&& 0xC0) >>> 6)
    let flavor := Flavor.fromPrim ((b &&& 0x20) >>> 5)
    let number := b &&& 0x1F
    match cls with
    | .Universal =>
      if number = 0x1F then
        .err .InvalidTypeAndFlavor 0 r1
      else
        match Ty.fromPrim number with
        | some t => .ok (cls, flavor, .Universal t) r1
        | none => .panicked
    | .Application =>
      match maybe_read_extended_number number r1 with
      | .ok n r2 => .ok (cls, flavor, .Application (Int.ofNat n)) r2
      | .err k o r2 => .err k o r2
      | .panicked => .panicked
      | .fuelOut => .fuelOut
    | .ContextSpecific =>
      match maybe_read_extended_number number r1 with
      | .ok n r2 => .ok (cls, flavor, .ContextSpecific (Int.ofNat n)) r2
      | .err k o r2 => .err k o r2
      | .panicked => .panicked
      | .fuelOut => .fuelOut
    | .Private =>
      match maybe_read_extended_number number r1 with
      | .ok n r2 => .ok (cls, flavor, .Private (Int.ofNat n)) r2
      | .err k o r2 => .err k o r2
      | .panicked => .panicked
      | .fuelOut => .fuelOut
  | .err k o r1 => .err k o r1
  | .panicked => .panicked
  | .fuelOut => .fuelOut

/-- The long-form loop of src/tag.rs `read_length`: `for i in 0..count` read
a byte and or it in at position `(count - i - 1) * 8`; `remaining` is
`count - i`, so the shift is `(remaining - 1) * 8`. -/
def read_length_loop : Nat → Nat → TrackedRead → DRes Nat
  | 0, ret, r => .ok ret r
  | remaining + 1, ret, r =>
    match r.readU8 with
    | .ok b r1 => read_length_loop remaining (ret ||| (b <<< (remaining * 8))) r1
    | .err k o r1 => .err k o r1
    | .panicked => .panicked
    | .fuelOut => .fuelOut

/-- src/tag.rs `read_length`: `0x80` is the indefinite form; any other byte
with the high bit set announces `b & 0x7F` big-endian length bytes (more
than 8 is `NumberOverflow`, raised before reading any further byte); a byte
with the high bit clear is the short-form value itself. -/
def read_length (r : TrackedRead) : DRes Length :=
  match r.readU8 with
  | .ok b r1 =>
    if b = 0x80 then .ok .Indefinite r1
    else if b &&& 0x80 = 0x80 then
      let count := b &&& 0x7F
      if count > 8 then .err .NumberOverflow 0 r1
      else
        match read_length_loop count 0 r1 with
        | .ok ret r2 => .ok (.Some ret) r2
        | .err k o r2 => .err k o r2
        | .panicked => .panicked
        | .fuelOut => .fuelOut
    else .ok (.Some b) r1
  | .err k o r1 => .err k o r1
  | .panicked => .panicked
  | .fuelOut => .fuelOut

mutual
/-- src/tag.rs `Tag::inner_read`: record the offset, read identifiers and
length, reject an indefinite length on a primitive flavor with
`InvalidLength` at the current position, read the payload, and assemble the
tag.  Each failing sub-step has its error offset overwritten with `r.tell()`
at the point of failure.  The fuel argument only bounds recursion depth and
loop iterations; `Tag.read` supplies more than the Rust recursion can use. -/
def Tag.inner_read : Nat → TrackedRead → DRes Tag
  | 0, _ => .fuelOut
  | fuel + 1, r =>
    let offset := r.tell
    match read_identifiers r with
    | .ok (_cls, flavor, number) r1 =>
      match read_length r1 with
      | .ok length r2 =>
        if length = Length.Indefinite ∧ flavor = Flavor.Primitive then
          .err .InvalidLength r2.tell r2
        else
          match read_payload fuel length flavor r2 with
          | .ok payload r3 => .ok (.mk number (some offset) payload) r3
          | .err k _ r3 => .err k r3.tell r3
          | .panicked => .panicked
          | .fuelOut => .fuelOut
      | .err k _ r2 => .err k r2.tell r2
      | .panicked => .panicked
      | .fuelOut => .fuelOut
    | .err k _ r1 => .err k r1.tell r1
    | .panicked => .panicked
    | .fuelOut => .fuelOut

/-- src/tag.rs `read_payload`: a primitive payload is one `read` of the
declared byte count (the `unreachable!()` for primitive-indefinite, embedded
as `panicked`, is guarded one level up); a constructed payload records the
start position and runs the child loop on an initially empty child list. -/
def read_payload : Nat → Length → Flavor → TrackedRead → DRes Payload
  | 0, _, _, _ => .fuelOut
  | _fuel + 1, length, .Primitive, r =>
    match length with
    | .Some l =>
      let br := r.readInto l
      .ok (.Primitive br.1) br.2
    | .Indefinite => .panicked
  | fuel + 1, length, .Constructed, r =>
    read_payload_loop fuel length r.tell [] r

/-- The do-while child loop of src/tag.rs `read_payload`: decode one child
tag (unconditionally — the loop body runs before any condition is checked);
an `Eoc` child under an indefinite length ends the loop and is dropped;
otherwise the child is appended and, under `Definite l`, the loop ends once
`tell() - start >= l`. -/
def read_payload_loop : Nat → Length → Nat → List Tag → TrackedRead → DRes Payload
  | 0, _, _, _, _ => .fuelOut
  | fuel + 1, length, start, children, r =>
    match Tag.inner_read fuel r with
    | .ok child r1 =>
      if child.number = Number.Universal Ty.Eoc ∧ length = Length.Indefinite then
        .ok (.Constructed children) r1
      else
        match length with
        | .Some l =>
          if r1.tell - start ≥ l then .ok (.Constructed (children ++ [child])) r1
          else read_payload_loop fuel length start (children ++ [child]) r1
        | .Indefinite => read_payload_loop fuel length start (children ++ [child]) r1
    | .err k o r1 => .err k o r1
    | .panicked => .panicked
    | .fuelOut => .fuelOut
end

/-- src/tag.rs `Tag::read`: wrap the source in a fresh `TrackedRead` and
decode.  The fuel `3 * input length + 1` exceeds the depth any run of the
Rust code can reach, because every recursive step first consumes at least
one input byte. -/
def Tag.read (r : TrackedRead) : DRes Tag :=
  Tag.inner_read (3 * r.input.length + 1) r

/-- The class of a tag number, as matched at the start of src/tag.rs
`Tag::write`. -/
def Number.class : Number → Class
  | .Universal _ => .Universal
  | .Application _ => .Application
  | .ContextSpecific _ => .ContextSpecific
  | .Private _ => .Private

/-- The loop of src/tag.rs `write_extended_number` on the positive range:
emit `num & 0x7F`, shift `num` right by 7, and set the continuation bit
`0x80` on the emitted byte when the shifted value is still nonzero.  The
source works on `i64`; on positives the operations agree with `Nat` ones
(`>> 7` is division by 128). -/
def write_extended_number_pos (num : Nat) : List Nat :=
  if h : 0 < num then
    (if num >>> 7 ≠ 0 then (num &&& 0x7F) ||| 0x80 else num &&& 0x7F)
      :: write_extended_number_pos (num >>> 7)
  else []
termination_by num
decreasing_by
  simp only [Nat.shiftRight_eq_div_pow]
  exact Nat.div_lt_self h (by norm_num)

/-- src/tag.rs `write_extended_number`: the loop runs `while num > 0`, so a
non-positive `num` emits nothing — exactly `Int.toNat`'s collapse to 0. -/
def write_extended_number (num : Int) : List Nat :=
  write_extended_number_pos num.toNat

/-- src/tag.rs `maybe_write_extended_number`: only numbers `>= 0x1F` get the
extended encoding; smaller ones already fit the identifier's 5-bit field. -/
def maybe_write_extended_number (num : Int) : List Nat :=
  if num ≥ 0x1F then write_extended_number num else []

/-- src/tag.rs `write_identifiers`: class in bits 7–6, flavor in bit 5, and
in the low 5 bits the universal discriminant, the small number itself, or
the `0x1F` escape; extended-number bytes follow for non-universal numbers.
`*n as u8` is the i64-to-u8 truncation `(n % 256).toNat`. -/
def write_identifiers (cls : Class) (flavor : Flavor) (number : Number) : List Nat :=
  let b : Nat :=
    (cls.toNat <<< 6) ||| (flavor.toNat <<< 5) |||
      (match number with
       | .Universal t => t.toNat
       | .Application n | .ContextSpecific n | .Private n =>
         if n ≥ 0x1F then 0x1F else (n % 256).toNat)
  b ::
    (match number with
     | .Application n | .ContextSpecific n | .Private n =>
       maybe_write_extended_number n
     | .Universal _ => [])

/-- The byte-count loop of src/tag.rs `write_length`: do `count += 1;
val >>= 8` while `val > 0`; i.e. the number of base-256 digits of the
initial value (and 1 for value 0). -/
def write_length_count (count : Nat) (val : Nat) : Nat :=
  if h : 0 < val >>> 8 then write_length_count (count + 1) (val >>> 8)
  else count + 1
termination_by val
decreasing_by
  simp only [Nat.shiftRight_eq_div_pow] at h ⊢
  exact Nat.div_lt_self (lt_of_lt_of_le h (Nat.div_le_self _ _)) (by norm_num)

/-- The byte loop of src/tag.rs `write_length`: for `i` in `(0..count).rev()`
emit `(l & (0xFF << i*8)) >> i*8`, most significant byte first. -/
def write_length_bytes (l : Nat) (count : Nat) : List Nat :=
  (List.range count).reverse.map fun i => (l &&& (0xFF <<< (i * 8))) >>> (i * 8)

/-- src/tag.rs `write_length`: `Indefinite` is the byte `0x80`; a definite
value below `0x1F` is one short-form byte; otherwise long form, `count | 0x80`
followed by `count` big-endian bytes. -/
def write_length : Length → List Nat
  | .Indefinite => [0x80]
  | .Some l =>
    if l < 0x1F then [l]
    else (write_length_count 0 l ||| 0x80) :: write_length_bytes l (write_length_count 0 l)

mutual
/-- src/tag.rs `Tag::write`: derive the class from the number and the flavor
and advertised length from the payload variant — a primitive payload
advertises `Some(v.len())`, a constructed payload always advertises
`Indefinite` — then write identifiers, length, payload, and, for the
indefinite form, the two-byte End-of-Contents terminator. -/
def Tag.write : Tag → List Nat
  | .mk number _ payload =>
    let cls : Class := number.class
    let fl : Flavor :=
      match payload with
      | .Primitive _ => .Primitive
      | .Constructed _ => .Constructed
    let length : Length :=
      match payload with
      | .Primitive v => .Some v.length
      | .Constructed _ => .Indefinite
    write_identifiers cls fl number ++ write_length length ++
      write_payload payload ++
      (match length with
       | .Indefinite => [0x00, 0x00]
       | .Some _ => [])

/-- src/tag.rs `write_payload`: primitive bytes verbatim; constructed
children in order. -/
def write_payload : Payload → List Nat
  | .Primitive v => v
  | .Constructed v => write_tags v

/-- The `for tag in v` loop of src/tag.rs `write_payload`. -/
def write_tags : List Tag → List Nat
  | [] => []
  | t :: ts => Tag.write t ++ write_tags ts
end

/-- Tag numbers the encoder and decoder can both represent: universal types
always; a non-universal number when it is non-negative and below `2 ^ 56`
(the decoder accumulates at most eight 7-bit groups). -/
def Number.wfB : Number → Bool
  | .Universal _ => true
  | .Application n | .ContextSpecific n | .Private n => 0 ≤ n && n < 2 ^ 56

mutual
/-- Well-formed in-memory tags: representable numbers throughout, primitive
payloads that are genuine byte vectors (`u8` contents, `usize` length), and
no constructed payload holding a child numbered `Universal(Eoc)` (such a
child is indistinguishable on the wire from the indefinite-form
terminator). -/
def Tag.wfB : Tag → Bool
  | .mk number _ payload => number.wfB && payload.wfB

/-- Well-formedness of a payload; see `Tag.wfB`. -/
def Payload.wfB : Payload → Bool
  | .Primitive v => decide (v.length < 2 ^ 64) && v.all (· < 256)
  | .Constructed cs => wfTags cs

/-- Well-formedness of a child list; see `Tag.wfB`. -/
def wfTags : List Tag → Bool
  | [] => true
  | c :: cs => (c.number != Number.Universal Ty.Eoc) && Tag.wfB c && wfTags cs
end

mutual
/-- Erase every recorded offset in a tag.  `Tag::write` never looks at
offsets, so two tags equal after erasure have equal encodings. -/
def Tag.eraseOffsets : Tag → Tag
  | .mk number _ payload => .mk number none payload.eraseOffsets

/-- Erase offsets inside a payload; see `Tag.eraseOffsets`. -/
def Payload.eraseOffsets : Payload → Payload
  | .Primitive v => .Primitive v
  | .Constructed cs => .Constructed (eraseOffsetsTags cs)

/-- Erase offsets in each tag of a list; see `Tag.eraseOffsets`. -/
def eraseOffsetsTags : List Tag → List Tag
  | [] => []
  | c :: cs => c.eraseOffsets :: eraseOffsetsTags cs
end

/-- Disjoint or is addition: a value below `2 ^ k` or-ed with a `k`-shifted
value. -/
theorem lor_shiftLeft_eq_add {b : Nat} (a k : Nat) (hb : b < 2 ^ k) :
    b ||| (a <<< k) = b + a * 2 ^ k := by
  apply Nat.eq_of_testBit_eq
  intro i
  have hrhs : b + a * 2 ^ k = 2 ^ k * a + b := by ring
  rw [Nat.testBit_or, Nat.testBit_shiftLeft, hrhs, Nat.testBit_mul_pow_two_add a hb i]
  by_cases hik : i < k
  · simp [hik, Nat.not_le.mpr hik]
  · have hk : k ≤ i := Nat.not_lt.mp hik
    have : b.testBit i = false :=
      Nat.testBit_lt_two_pow (lt_of_lt_of_le hb (Nat.pow_le_pow_right (by norm_num) hk))
    simp [hik, hk, this]

/-- Disjoint or is addition: a value with `k + j` trailing zero bits or-ed
with a `j`-bit value shifted by `k`. -/
theorem lor_shiftLeft_eq_add' {a d : Nat} (k j : Nat)
    (ha : a % 2 ^ (k + j) = 0) (hd : d < 2 ^ j) :
    a ||| (d <<< k) = a + d * 2 ^ k := by
  obtain ⟨q, hq⟩ := Nat.dvd_of_mod_eq_zero ha
  subst hq
  apply Nat.eq_of_testBit_eq
  intro i
  have hk0 : (0 : Nat) < 2 ^ k := pow_pos (by norm_num) k
  have hkj0 : (0 : Nat) < 2 ^ (k + j) := pow_pos (by norm_num) (k + j)
  have h1 : 2 ^ (k + j) * q + d * 2 ^ k = 2 ^ k * (2 ^ j * q + d) + 0 := by ring
  have h2 : (2 ^ (k + j) * q : Nat) = 2 ^ (k + j) * q + 0 := by ring
  rw [Nat.testBit_or, Nat.testBit_shiftLeft, h1,
    Nat.testBit_mul_pow_two_add (2 ^ j * q + d) hk0 i]
  conv_lhs => rw [h2]
  rw [Nat.testBit_mul_pow_two_add q hkj0 i]
  rcases Nat.lt_or_ge i k with hik | hik
  · simp [hik, show i < k + j by omega, show ¬ k ≤ i by omega]
  · rw [Nat.testBit_mul_pow_two_add q hd (i - k)]
    rcases Nat.lt_or_ge i (k + j) with hij | hij
    · simp [show ¬ i < k by omega, hik, show i - k < j by omega, Nat.zero_testBit]
      exact fun h => absurd hij (by omega)
    · have hdf : d.testBit (i - k) = false := by
        apply Nat.testBit_lt_two_pow
        exact lt_of_lt_of_le hd (Nat.pow_le_pow_right (by norm_num) (by omega))
      simp [show ¬ i < k by omega, show ¬ i < k + j by omega, hik, hdf,
        show ¬ i - k < j by omega, show i - (k + j) = i - k - j by omega, Nat.zero_testBit]

/-- Extracting the class, flavor and number fields from an identifier byte
assembled by `write_identifiers`. -/
theorem identifier_bits : ∀ c < 4, ∀ f < 2, ∀ m < 32,
    ((((c <<< 6) ||| (f <<< 5) ||| m) &&& 0xC0) >>> 6 = c ∧
     (((c <<< 6) ||| (f <<< 5) ||| m) &&& 0x20) >>> 5 = f ∧
     ((c <<< 6) ||| (f <<< 5) ||| m) &&& 0x1F = m) := by decide

/-- C4: on a Universal-class identifier byte, a 5-bit field of `0x1F` fails
with `InvalidTypeAndFlavor` — that half holds (first conjunct, input
`0x1F`).  But the claim's other half fails: a 5-bit field that is not a
defined `Type` discriminant (14 or 15) makes `read_identifiers` `unwrap` a
`None` from `FromPrimitive::from_i8`, i.e. the decoder panics instead of
returning an invalid-discriminant error (`err::Kind` has no such variant).
Inputs `0x0E` and `0x0F` (Universal, primitive, fields 14 and 15) reach the
panic. -/
theorem claim_C4_panics_on_undefined_discriminant :
    Tag.read ⟨[0x1F], 0⟩ = .err .InvalidTypeAndFlavor 1 ⟨[], 1⟩ ∧
    Tag.read ⟨[0x0E], 0⟩ = .panicked ∧
    Tag.read ⟨[0x0F], 0⟩ = .panicked :=
  ⟨rfl, rfl, rfl⟩

/-- C8: the nine bytes `30 80 0C 03 64 65 66 00 00` decode to
`Universal(Sequence)` at offset 0 containing exactly the one child
`Universal(Utf8String)` at offset 2 with primitive payload `64 65 66`
(consuming all nine bytes), and re-encoding that tag reproduces the same
nine bytes. -/
theorem claim_C8_example_roundtrip :
    Tag.read ⟨[0x30, 0x80, 0x0C, 0x03, 0x64, 0x65, 0x66, 0x00, 0x00], 0⟩ =
      .ok (.mk (.Universal .Sequence) (some 0)
        (.Constructed [.mk (.Universal .Utf8String) (some 2)
          (.Primitive [0x64, 0x65, 0x66])])) ⟨[], 9⟩ ∧
    Tag.write (.mk (.Universal .Sequence) (some 0)
        (.Constructed [.mk (.Universal .Utf8String) (some 2)
          (.Primitive [0x64, 0x65, 0x66])])) =
      [0x30, 0x80, 0x0C, 0x03, 0x64, 0x65, 0x66, 0x00, 0x00] :=
  ⟨rfl, rfl⟩

/-- C7: whenever the identifiers parse with flavor `Primitive` and the next
byte of input is the indefinite-length byte `0x80`, `Tag::inner_read` fails
with `InvalidLength` at the position just past that byte (for any fuel, so
in particular for `Tag::read`). -/
theorem claim_C7_indefinite_primitive_rejected
    (fuel : Nat) (r r1 : TrackedRead) (cls : Class) (num : Number)
    (hid : read_identifiers r = .ok (cls, .Primitive, num) r1)
    (hb : r1.input.head? = some 0x80) :
    Tag.inner_read (fuel + 1) r =
      .err .InvalidLength (r1.pos + 1) ⟨r1.input.tail, r1.pos + 1⟩ := by
  obtain ⟨input, pos⟩ := r1
  match input, hb with
  | 0x80 :: tail, _ =>
    simp only [Tag.inner_read, hid, read_length, TrackedRead.readU8,
      read_payload, TrackedRead.tell, List.tail_cons]
    norm_num

/-- Witness for C7 at the concrete input `02 80` (`Universal(Integer)`,
primitive, indefinite length). -/
theorem claim_C7_witness :
    Tag.inner_read 6 ⟨[0x02, 0x80], 0⟩ = .err .InvalidLength 2 ⟨[], 2⟩ :=
  claim_C7_indefinite_primitive_rejected 5 ⟨[0x02, 0x80], 0⟩ ⟨[0x80], 1⟩
    .Universal (.Universal .Integer) rfl rfl

/-- Under a definite length, a successful run of the child loop always
returns a `Constructed` list strictly longer than the one it started from:
the loop body parses and appends a child before the byte-count bound is
consulted. -/
theorem read_payload_loop_some_grows :
    ∀ (fuel n start : Nat) (children : List Tag) (r : TrackedRead)
      (pl : Payload) (r1 : TrackedRead),
      read_payload_loop fuel (.Some n) start children r = .ok pl r1 →
      ∃ l, pl = .Constructed l ∧ children.length < l.length := by
  intro fuel
  induction fuel with
  | zero => intro n start children r pl r1 h; exact absurd h (by simp [read_payload_loop])
  | succ fuel ih =>
    intro n start children r pl r1 h
    rw [read_payload_loop] at h
    cases hi : Tag.inner_read fuel r with
    | ok child r2 =>
      rw [hi] at h
      dsimp only at h
      rw [if_neg (by simp)] at h
      by_cases hstop : r2.tell - start ≥ n
      · rw [if_pos hstop] at h
        cases h
        exact ⟨children ++ [child], rfl, by simp⟩
      · rw [if_neg hstop] at h
        obtain ⟨l, hl, hlen⟩ := ih n start (children ++ [child]) r2 pl r1 h
        exact ⟨l, hl, by simp at hlen; omega⟩
    | err k o r2 => rw [hi] at h; dsimp only at h; exact absurd h (by simp)
    | panicked => rw [hi] at h; dsimp only at h; exact absurd h (by simp)
    | fuelOut => rw [hi] at h; dsimp only at h; exact absurd h (by simp)

/-- C9: a constructed payload under `Definite(0)` (indeed under any definite
length) never decodes to an empty child list, because one child is decoded
and appended before the bound `tell() - start >= l` is checked (first
conjunct).  Concretely, `30 00` fails with the end-of-input read error at
offset 2, while `30 00 02 01 05` succeeds and returns the over-consumed
child — the outcome depends on the bytes following the zero-length
header. -/
theorem claim_C9_definite_zero_not_empty :
    (∀ (fuel n : Nat) (r : TrackedRead) (pl : Payload) (r1 : TrackedRead),
       read_payload (fuel + 1) (.Some n) .Constructed r = .ok pl r1 →
       ∃ c cs, pl = .Constructed (c :: cs)) ∧
    Tag.read ⟨[0x30, 0x00], 0⟩ = .err .Byteorder 2 ⟨[], 2⟩ ∧
    Tag.read ⟨[0x30, 0x00, 0x02, 0x01, 0x05], 0⟩ =
      .ok (.mk (.Universal .Sequence) (some 0)
        (.Constructed [.mk (.Universal .Integer) (some 2)
          (.Primitive [0x05])])) ⟨[], 5⟩ := by
  refine ⟨?_, rfl, rfl⟩
  intro fuel n r pl r1 h
  rw [read_payload] at h
  obtain ⟨l, hl, hlen⟩ := read_payload_loop_some_grows fuel n r.tell [] r pl r1 h
  match l, hlen with
  | c :: cs, _ => exact ⟨c, cs, hl⟩

/-- Witness for C9's universal conjunct: the payload `02 01 05` after a
`Definite(0)` constructed header still produces one child. -/
theorem claim_C9_witness :
    ∃ c cs, Payload.Constructed [Tag.mk (.Universal .Integer) (some 2)
      (.Primitive [0x05])] = Payload.Constructed (c :: cs) :=
  claim_C9_definite_zero_not_empty.1 20 0 ⟨[0x02, 0x01, 0x05], 2⟩
    (.Constructed [.mk (.Universal .Integer) (some 2) (.Primitive [0x05])])
    ⟨[], 5⟩ rfl

/-- C10: under `Definite(n)` the loop checks `tell() - start >= n` only
after a successfully decoded child has been appended, so a child whose
encoding overshoots the declared `n` is consumed in full and the loop
returns success with that child included — no error exists for consuming
more than `n` payload bytes (first conjunct, which does not constrain how
far `r1` overshoots `start + n`).  Concretely, `30 01 02 01 05` declares a
1-byte payload whose single child occupies 3 bytes, and decoding succeeds
with the child included. -/
theorem claim_C10_overconsuming_child_accepted :
    (∀ (fuel n start : Nat) (children : List Tag) (r r1 : TrackedRead) (child : Tag),
       Tag.inner_read fuel r = .ok child r1 →
       n ≤ r1.tell - start →
       read_payload_loop (fuel + 1) (.Some n) start children r =
         .ok (.Constructed (children ++ [child])) r1) ∧
    Tag.read ⟨[0x30, 0x01, 0x02, 0x01, 0x05], 0⟩ =
      .ok (.mk (.Universal .Sequence) (some 0)
        (.Constructed [.mk (.Universal .Integer) (some 2)
          (.Primitive [0x05])])) ⟨[], 5⟩ := by
  refine ⟨?_, rfl⟩
  intro fuel n start children r r1 child hc hover
  rw [read_payload_loop, hc]
  dsimp only
  rw [if_neg (by simp), if_pos hover]

/-- Witness for C10's universal conjunct: the 3-byte child `02 01 05` inside
a `Definite(1)` constructed payload. -/
theorem claim_C10_witness :
    read_payload_loop 21 (.Some 1) 2 [] ⟨[0x02, 0x01, 0x05], 2⟩ =
      .ok (.Constructed [Tag.mk (.Universal .Integer) (some 2)
        (.Primitive [0x05])]) ⟨[], 5⟩ :=
  claim_C10_overconsuming_child_accepted.1 20 1 2 [] ⟨[0x02, 0x01, 0x05], 2⟩
    ⟨[], 5⟩ (.mk (.Universal .Integer) (some 2) (.Primitive [0x05])) rfl
    (by norm_num [TrackedRead.tell])

/-- Every byte of `bs` carrying the continuation bit: the extended-number
loop consumes exactly `bs` and stops by exhausting its 8-group budget,
returning the accumulated value without error. -/
theorem read_extended_number_loop_all_continuation :
    ∀ (bs : List Nat) (count ret : Nat) (rest : List Nat) (p : Nat),
      (∀ x ∈ bs, x &&& 0x80 ≠ 0) →
      ∃ v, read_extended_number_loop bs.length count ret ⟨bs ++ rest, p⟩ =
        .ok v ⟨rest, p + bs.length⟩ := by
  intro bs
  induction bs with
  | nil => intro count ret rest p _; exact ⟨ret, by simp [read_extended_number_loop]⟩
  | cons b bs ih =>
    intro count ret rest p hcont
    simp only [List.length_cons, read_extended_number_loop, List.cons_append,
      TrackedRead.readU8]
    rw [if_neg (hcont b (List.mem_cons_self b bs))]
    obtain ⟨v, hv⟩ := ih (count + 1) (ret ||| ((b &&& 0x7F) <<< (7 * count))) rest (p + 1)
      (fun x hx => hcont x (List.mem_cons_of_mem b hx))
    exact ⟨v, by rw [hv]; congr 1; simp; omega⟩

/-- C3 (amended): a long-form length whose first byte announces more than 8
following bytes fails with `NumberOverflow` without reading past that first
byte — that half of the claim holds.  An extended tag number, however, never
raises `NumberOverflow`: after at most 8 continuation groups the loop simply
stops, returning the (truncated) accumulated value as success; no 9th byte
is read. -/
theorem claim_C3_amended :
    (∀ (b : Nat) (rest : List Nat) (p : Nat),
       b &&& 0x80 = 0x80 → b ≠ 0x80 → 8 < b &&& 0x7F →
       read_length ⟨b :: rest, p⟩ = .err .NumberOverflow 0 ⟨rest, p + 1⟩) ∧
    (∀ (bs : List Nat) (rest : List Nat) (p : Nat),
       bs.length = 8 → (∀ x ∈ bs, x &&& 0x80 ≠ 0) →
       ∃ v, read_extended_number ⟨bs ++ rest, p⟩ = .ok v ⟨rest, p + 8⟩) := by
  constructor
  · intro b rest p hhigh hne hcount
    rw [read_length]
    simp only [TrackedRead.readU8]
    rw [if_neg hne, if_pos hhigh, if_pos hcount]
  · intro bs rest p hlen hcont
    rw [read_extended_number, ← hlen]
    exact hlen ▸ read_extended_number_loop_all_continuation bs 0 0 rest p hcont

/-- C3 counterexample to the claim as stated: an extended tag number with
eight continuation bytes (announcing a 9th group) decodes as success
(value 0 here), not as a `NumberOverflow` error; the 9th byte `0x01` is
left unread. -/
theorem claim_C3_counterexample :
    read_extended_number
      ⟨[0x80, 0x80, 0x80, 0x80, 0x80, 0x80, 0x80, 0x80, 0x01], 0⟩ =
      .ok 0 ⟨[0x01], 8⟩ := rfl

/-- Witness for C3 (amended) at `89 AA BB` (length announcing 9 bytes) and
eight `80` continuation bytes followed by `01`. -/
theorem claim_C3_witness :
    read_length ⟨[0x89, 0xAA, 0xBB], 0⟩ = .err .NumberOverflow 0 ⟨[0xAA, 0xBB], 1⟩ ∧
    ∃ v, read_extended_number
      ⟨List.replicate 8 0x80 ++ [0x01], 0⟩ = .ok v ⟨[0x01], 8⟩ :=
  ⟨claim_C3_amended.1 0x89 [0xAA, 0xBB] 0 (by decide) (by decide) (by decide),
   claim_C3_amended.2 (List.replicate 8 0x80) [0x01] 0 (by simp)
     (by intro x hx; rw [List.eq_of_mem_replicate hx]; decide)⟩

/-- A right shift distributes over bitwise and. -/
theorem and_shiftRight_distrib (x y n : Nat) :
    (x &&& y) >>> n = (x >>> n) &&& (y >>> n) := by
  apply Nat.eq_of_testBit_eq
  intro i
  simp [Nat.testBit_shiftRight, Nat.testBit_and]

/-- Each byte emitted by the long-form length loop is the corresponding
base-256 digit. -/
theorem write_length_bytes_elem (l i : Nat) :
    (l &&& (0xFF <<< (i * 8))) >>> (i * 8) = l / 256 ^ i % 256 := by
  rw [and_shiftRight_distrib, Nat.shiftLeft_shiftRight]
  rw [show (0xFF : Nat) = 2 ^ 8 - 1 by norm_num, Nat.and_pow_two_sub_one_eq_mod,
    Nat.shiftRight_eq_div_pow]
  rw [show i * 8 = 8 * i by ring, pow_mul]
  norm_num

/-- The byte list of the long-form length is the reversed-range map of the
base-256 digits. -/
theorem write_length_bytes_eq (l k : Nat) :
    write_length_bytes l k = (List.range k).reverse.map fun i => l / 256 ^ i % 256 := by
  rw [write_length_bytes]
  congr 1
  funext i
  exact write_length_bytes_elem l i

/-- The do-while byte-count loop computes exactly the number of base-256
digits: the count `k` it adds to its accumulator satisfies
`256 ^ (k - 1) <= l < 256 ^ k` (for `l > 0`), i.e. `k` is minimal. -/
theorem write_length_count_spec :
    ∀ l c, ∃ k, write_length_count c l = c + k ∧ 1 ≤ k ∧ l < 256 ^ k ∧
      (l = 0 ∨ 256 ^ (k - 1) ≤ l) := by
  intro l
  induction l using Nat.strong_induction_on with
  | _ l ih =>
    intro c
    have h256 : l >>> 8 = l / 256 := by
      rw [Nat.shiftRight_eq_div_pow]
    rw [write_length_count]
    by_cases h : 0 < l >>> 8
    · rw [dif_pos h]
      have hlt : l >>> 8 < l := by
        rw [h256] at h ⊢
        exact Nat.div_lt_self (by omega) (by norm_num)
      obtain ⟨k', hk', h1, hup, hlo⟩ := ih (l >>> 8) hlt (c + 1)
      refine ⟨k' + 1, by rw [hk']; omega, by omega, ?_, ?_⟩
      · rw [h256] at hup
        have := (Nat.div_lt_iff_lt_mul (show 0 < 256 by norm_num)).mp hup
        calc l < 256 ^ k' * 256 := this
        _ = 256 ^ (k' + 1) := (pow_succ 256 k').symm
      · right
        rcases hlo with h0 | hge
        · rw [h256] at h h0; omega
        · rw [h256] at hge
          have hcalc : 256 ^ k' ≤ l := by
            calc 256 ^ k' = 256 ^ (k' - 1) * 256 := by
                  rw [← pow_succ]; congr 1; omega
            _ ≤ l / 256 * 256 := Nat.mul_le_mul_right 256 hge
            _ ≤ l := Nat.div_mul_le_self l 256
          simpa using hcalc
    · rw [dif_neg h]
      have hsmall : l < 256 := by rw [h256] at h; omega
      refine ⟨1, rfl, le_refl 1, by simpa using hsmall, ?_⟩
      rcases Nat.eq_zero_or_pos l with h0 | h1
      · exact Or.inl h0
      · exact Or.inr (by simpa using h1)

/-- Folding most-significant-first base-256 digits reassembles the value. -/
theorem foldl_be_digits (l : Nat) :
    ∀ (k acc : Nat),
      ((List.range k).reverse.map fun i => l / 256 ^ i % 256).foldl
        (fun a b => a * 256 + b) acc = acc * 256 ^ k + l % 256 ^ k := by
  intro k
  induction k with
  | zero => intro acc; simp [Nat.mod_one]
  | succ k ih =>
    intro acc
    rw [List.range_succ]
    simp only [List.reverse_append, List.reverse_cons, List.reverse_nil,
      List.nil_append, List.singleton_append, List.map_cons, List.foldl_cons]
    rw [ih]
    have hmod : l % 256 ^ (k + 1) = l % 256 ^ k + 256 ^ k * (l / 256 ^ k % 256) := by
      rw [pow_succ]; exact Nat.mod_mul
    rw [hmod, pow_succ]; ring

/-- C6: `Indefinite` encodes as the single byte `0x80`; a definite value
below `0x1F` is the single short-form byte; a definite value `>= 0x1F` is
encoded in long form as `0x80 | k` followed by exactly `k` big-endian bytes
reassembling to the value, with `k` minimal (`256 ^ (k-1) <= n < 256 ^ k`);
in particular 255 encodes as `81 FF` and 256 as `82 01 00`. -/
theorem claim_C6_write_length :
    write_length .Indefinite = [0x80] ∧
    (∀ m : Nat, m < 0x1F → write_length (.Some m) = [m]) ∧
    (∀ n : Nat, 0x1F ≤ n →
       ∃ k bs, write_length (.Some n) = (0x80 ||| k) :: bs ∧
         bs.length = k ∧ (∀ b ∈ bs, b < 256) ∧
         bs.foldl (fun a b => a * 256 + b) 0 = n ∧
         n < 256 ^ k ∧ 256 ^ (k - 1) ≤ n) ∧
    write_length (.Some 255) = [0x81, 0xFF] ∧
    write_length (.Some 256) = [0x82, 0x01, 0x00] := by
  refine ⟨rfl, ?_, ?_, ?_, ?_⟩
  · intro m hm
    rw [write_length, if_pos hm]
  · intro n hn
    obtain ⟨k, hk, h1, hup, hlo⟩ := write_length_count_spec n 0
    rw [Nat.zero_add] at hk
    refine ⟨k, write_length_bytes n k, ?_, ?_, ?_, ?_, hup, ?_⟩
    · rw [write_length, if_neg (by omega), hk, Nat.lor_comm]
    · rw [write_length_bytes_eq]; simp
    · rw [write_length_bytes_eq]
      intro b hb
      simp only [List.mem_map] at hb
      obtain ⟨i, _, hbi⟩ := hb
      omega
    · rw [write_length_bytes_eq, foldl_be_digits]
      simp [Nat.mod_eq_of_lt hup]
    · rcases hlo with h0 | hge
      · omega
      · exact hge
  · have hc : write_length_count 0 255 = 1 := by
      rw [write_length_count, dif_neg (by decide)]
    rw [write_length, if_neg (by norm_num), hc]
    decide
  · have hc1 : write_length_count 1 1 = 2 := by
      rw [write_length_count, dif_neg (by decide)]
    have hc : write_length_count 0 256 = 2 := by
      rw [write_length_count, dif_pos (by decide),
        show (256 : Nat) >>> 8 = 1 by decide, hc1]
    rw [write_length, if_neg (by norm_num), hc]
    decide

/-- Witness for C6's quantified conjuncts at `m = 5` and `n = 256`. -/
theorem claim_C6_witness :
    write_length (.Some 5) = [5] ∧
    ∃ k bs, write_length (.Some 256) = (0x80 ||| k) :: bs ∧
      bs.length = k ∧ (∀ b ∈ bs, b < 256) ∧
      bs.foldl (fun a b => a * 256 + b) 0 = 256 ∧
      256 < 256 ^ k ∧ 256 ^ (k - 1) ≤ 256 :=
  ⟨claim_C6_write_length.2.1 5 (by norm_num),
   claim_C6_write_length.2.2.1 256 (by norm_num)⟩

/-- Low 7-bit mask is reduction mod 128. -/
theorem and_7f (x : Nat) : x &&& 0x7F = x % 128 := by
  rw [show (0x7F : Nat) = 2 ^ 7 - 1 by norm_num, Nat.and_pow_two_sub_one_eq_mod]

/-- Shifting right by 7 is division by 128. -/
theorem shr_7 (x : Nat) : x >>> 7 = x / 128 := by
  rw [Nat.shiftRight_eq_div_pow]

/-- Setting the continuation bit on a 7-bit value adds 128. -/
theorem lor_80 (y : Nat) (hy : y < 128) : y ||| 0x80 = y + 128 := by
  have h := lor_shiftLeft_eq_add (b := y) 1 7 (by norm_num; exact hy)
  norm_num [Nat.shiftLeft_eq] at h
  rw [h]

/-- A value below 128 has a clear continuation bit. -/
theorem and_80_of_lt (x : Nat) (h : x < 128) : x &&& 0x80 = 0 := by
  have h2 := Nat.and_two_pow x 7
  rw [Nat.testBit_lt_two_pow (by norm_num; exact h)] at h2
  norm_num at h2
  exact h2

/-- A 7-bit value plus 128 has the continuation bit set. -/
theorem and_80_of_add (y : Nat) (hy : y < 128) : (y + 128) &&& 0x80 ≠ 0 := by
  have ht : (y + 128).testBit 7 = true := by
    have h1 : y + 128 = 2 ^ 7 * 1 + y := by ring
    rw [h1, Nat.testBit_mul_pow_two_add 1 (by norm_num; exact hy) 7]
    simp
  have h2 := Nat.and_two_pow (y + 128) 7
  rw [ht] at h2
  norm_num at h2
  omega

/-- Unfolding `write_extended_number_pos` on a positive argument. -/
theorem write_extended_number_pos_eq (num : Nat) (h : 0 < num) :
    write_extended_number_pos num =
      (if num >>> 7 ≠ 0 then (num &&& 0x7F) ||| 0x80 else num &&& 0x7F)
        :: write_extended_number_pos (num >>> 7) := by
  rw [write_extended_number_pos, dif_pos h]

/-- `write_extended_number_pos 0` emits nothing. -/
theorem write_extended_number_pos_zero : write_extended_number_pos 0 = [] := by
  rw [write_extended_number_pos, dif_neg (by omega)]

/-- The extended-number read loop inverts the write loop: with `remaining`
group slots left and an accumulator holding fewer than `7 * count` bits, a
positive `num` of at most `7 * remaining` bits is read back in full and
exactly its encoding is consumed. -/
theorem read_write_extended_number_loop :
    ∀ (num remaining count ret : Nat) (rest : List Nat) (p : Nat),
      0 < num → num < 2 ^ (7 * remaining) → ret < 2 ^ (7 * count) →
      read_extended_number_loop remaining count ret
        ⟨write_extended_number_pos num ++ rest, p⟩ =
        .ok (ret + num * 2 ^ (7 * count))
          ⟨rest, p + (write_extended_number_pos num).length⟩ := by
  intro num
  induction num using Nat.strong_induction_on with
  | _ num ih =>
    intro remaining count ret rest p hpos hnum hret
    obtain ⟨rem, rfl⟩ : ∃ rem, remaining = rem + 1 := by
      cases remaining with
      | zero =>
        exfalso
        rw [show (2 : Nat) ^ (7 * 0) = 1 by norm_num] at hnum
        omega
      | succ rem => exact ⟨rem, rfl⟩
    by_cases h7 : num >>> 7 = 0
    · have hlt : num < 128 := by rw [shr_7] at h7; omega
      have hd : (if num >>> 7 ≠ 0 then (num &&& 0x7F) ||| 0x80 else num &&& 0x7F) = num := by
        rw [if_neg (not_not_intro h7), and_7f, Nat.mod_eq_of_lt hlt]
      rw [write_extended_number_pos_eq num hpos, hd, h7, write_extended_number_pos_zero,
        List.cons_append, List.nil_append, read_extended_number_loop]
      simp only [TrackedRead.readU8]
      rw [if_pos (and_80_of_lt num hlt), and_7f, Nat.mod_eq_of_lt hlt,
        lor_shiftLeft_eq_add num (7 * count) hret]
      simp
    · have hmlt : num % 128 < 128 := Nat.mod_lt num (by norm_num)
      have hd : (if num >>> 7 ≠ 0 then (num &&& 0x7F) ||| 0x80 else num &&& 0x7F) =
          num % 128 + 128 := by
        rw [if_pos h7, and_7f, lor_80 (num % 128) hmlt]
      rw [write_extended_number_pos_eq num hpos, hd, List.cons_append,
        read_extended_number_loop]
      simp only [TrackedRead.readU8]
      rw [if_neg (and_80_of_add (num % 128) hmlt)]
      have hand : (num % 128 + 128) &&& 0x7F = num % 128 := by
        rw [and_7f, Nat.add_mod_right, Nat.mod_eq_of_lt hmlt]
      rw [hand, lor_shiftLeft_eq_add (num % 128) (7 * count) hret]
      have hpos7 : 0 < num >>> 7 := Nat.pos_of_ne_zero h7
      have hshift : num >>> 7 < num := by
        rw [shr_7]
        exact Nat.div_lt_self hpos (by norm_num)
      have hnum7 : num >>> 7 < 2 ^ (7 * rem) := by
        rw [shr_7]
        apply (Nat.div_lt_iff_lt_mul (by norm_num : (0 : Nat) < 128)).mpr
        calc num < 2 ^ (7 * (rem + 1)) := hnum
        _ = 2 ^ (7 * rem) * 128 := by
              rw [show 7 * (rem + 1) = 7 * rem + 7 by ring, pow_add]; norm_num
      have haccle : ret + (num % 128) * 2 ^ (7 * count) < 2 ^ (7 * (count + 1)) := by
        have h1 : 2 ^ (7 * (count + 1)) = 2 ^ (7 * count) * 128 := by
          rw [show 7 * (count + 1) = 7 * count + 7 by ring, pow_add]; norm_num
        have h2 : (num % 128) * 2 ^ (7 * count) ≤ 127 * 2 ^ (7 * count) :=
          Nat.mul_le_mul_right _ (by omega)
        nlinarith [pow_pos (show (0 : Nat) < 2 by norm_num) (7 * count)]
      rw [ih (num >>> 7) hshift rem (count + 1)
        (ret + (num % 128) * 2 ^ (7 * count)) rest (p + 1) hpos7 hnum7 haccle]
      have hval : ret + (num % 128) * 2 ^ (7 * count) + (num >>> 7) * 2 ^ (7 * (count + 1)) =
          ret + num * 2 ^ (7 * count) := by
        rw [shr_7, show 7 * (count + 1) = 7 * count + 7 by ring, pow_add,
          show (2 : Nat) ^ 7 = 128 by norm_num]
        have hdm : num % 128 + 128 * (num / 128) = num := by omega
        calc ret + num % 128 * 2 ^ (7 * count) + num / 128 * (2 ^ (7 * count) * 128)
            = ret + (num % 128 + 128 * (num / 128)) * 2 ^ (7 * count) := by ring
        _ = ret + num * 2 ^ (7 * count) := by rw [hdm]
      rw [hval]
      congr 2
      simp
      omega

/-- The encoding of a positive extended number below `2 ^ 56` decodes back
to exactly that number, consuming exactly the encoding. -/
theorem read_write_extended_number (num : Nat) (h0 : 0 < num) (h56 : num < 2 ^ 56)
    (rest : List Nat) (p : Nat) :
    read_extended_number ⟨write_extended_number_pos num ++ rest, p⟩ =
      .ok num ⟨rest, p + (write_extended_number_pos num).length⟩ := by
  have h := read_write_extended_number_loop num 8 0 0 rest p h0
    (by norm_num; exact h56) (by norm_num)
  rw [read_extended_number, h]
  norm_num

/-- Every universal type discriminant fits the 5-bit field and is not the
escape value. -/
theorem ty_toNat_lt (t : Ty) : t.toNat < 31 := by cases t <;> decide

/-- `from_i8` inverts the discriminant map. -/
theorem ty_fromPrim_toNat (t : Ty) : Ty.fromPrim t.toNat = some t := by
  cases t <;> rfl

/-- `from_u8` inverts the class discriminant map. -/
theorem class_fromPrim_toNat (c : Class) : Class.fromPrim c.toNat = c := by
  cases c <;> rfl

/-- `from_u8` inverts the flavor discriminant map. -/
theorem flavor_fromPrim_toNat (f : Flavor) : Flavor.fromPrim f.toNat = f := by
  cases f <;> rfl

/-- Class discriminants are two bits. -/
theorem class_toNat_lt (c : Class) : c.toNat < 4 := by cases c <;> decide

/-- Flavor discriminants are one bit. -/
theorem flavor_toNat_lt (f : Flavor) : f.toNat < 2 := by cases f <;> decide

/-- `maybe_read_extended_number` inverts `maybe_write_extended_number` on
the 5-bit field value `write_identifiers` chooses, for representable
numbers. -/
theorem maybe_read_write_extended_number (n : Int) (h0 : 0 ≤ n) (h56 : n < 2 ^ 56)
    (rest : List Nat) (p : Nat) :
    maybe_read_extended_number (if 0x1F ≤ n then 0x1F else (n % 256).toNat)
      ⟨maybe_write_extended_number n ++ rest, p⟩ =
      .ok n.toNat ⟨rest, p + (maybe_write_extended_number n).length⟩ := by
  by_cases hge : 0x1F ≤ n
  · rw [if_pos hge, maybe_write_extended_number, if_pos hge, write_extended_number,
      maybe_read_extended_number, if_pos rfl]
    exact read_write_extended_number n.toNat (by omega) (by omega) rest p
  · have hlt : n < 0x1F := by omega
    have hmod : n % 256 = n := Int.emod_eq_of_lt h0 (by omega)
    rw [if_neg hge, maybe_write_extended_number, if_neg hge,
      maybe_read_extended_number, if_neg (by rw [hmod]; omega)]
    rw [hmod]
    simp

/-- Reading back an identifier written by `write_identifiers`: the class,
flavor and number are recovered exactly and exactly the written bytes are
consumed, provided the class matches the number's variant and the number is
representable. -/
theorem read_write_identifiers (cls : Class) (fl : Flavor) (number : Number)
    (hc : cls = number.class) (hw : number.wfB = true) (rest : List Nat) (p : Nat) :
    read_identifiers ⟨write_identifiers cls fl number ++ rest, p⟩ =
      .ok (cls, fl, number) ⟨rest, p + (write_identifiers cls fl number).length⟩ := by
  subst hc
  cases number with
  | Universal t =>
    have hb := identifier_bits Class.Universal.toNat (class_toNat_lt _)
      fl.toNat (flavor_toNat_lt _) t.toNat (by have := ty_toNat_lt t; omega)
    simp only [Number.class] at *
    rw [write_identifiers]
    rw [read_identifiers]
    simp only [List.cons_append, List.nil_append, TrackedRead.readU8]
    rw [hb.1, hb.2.1, hb.2.2, class_fromPrim_toNat, flavor_fromPrim_toNat]
    dsimp only
    rw [if_neg (by have := ty_toNat_lt t; omega), ty_fromPrim_toNat]
    simp
  | Application n =>
    have hw' : 0 ≤ n ∧ n < 2 ^ 56 := by
      simpa [Number.wfB, decide_eq_true_eq] using hw
    have hm : (if (0x1F : Int) ≤ n then (0x1F : Nat) else (n % 256).toNat) < 32 := by
      by_cases hge : (0x1F : Int) ≤ n
      · rw [if_pos hge]; omega
      · rw [if_neg hge, Int.emod_eq_of_lt hw'.1 (by omega)]; omega
    have hb := identifier_bits Class.Application.toNat (class_toNat_lt _)
      fl.toNat (flavor_toNat_lt _) _ hm
    simp only [Number.class] at *
    rw [write_identifiers]
    rw [read_identifiers]
    simp only [List.cons_append, List.append_assoc, TrackedRead.readU8]
    rw [show ∀ x : Int, (if x ≥ 0x1F then (0x1F : Nat) else (x % 256).toNat) =
      (if 0x1F ≤ x then (0x1F : Nat) else (x % 256).toNat) from fun x => rfl]
    rw [hb.1, hb.2.1, hb.2.2, class_fromPrim_toNat, flavor_fromPrim_toNat]
    dsimp only
    rw [maybe_read_write_extended_number n hw'.1 hw'.2 rest (p + 1)]
    dsimp only
    rw [show Int.ofNat n.toNat = n by
      rw [Int.ofNat_eq_natCast]; exact Int.toNat_of_nonneg hw'.1]
    simp only [List.length_cons]
    rw [show p + 1 + (maybe_write_extended_number n).length =
      p + ((maybe_write_extended_number n).length + 1) by omega]
  | ContextSpecific n =>
    have hw' : 0 ≤ n ∧ n < 2 ^ 56 := by
      simpa [Number.wfB, decide_eq_true_eq] using hw
    have hm : (if (0x1F : Int) ≤ n then (0x1F : Nat) else (n % 256).toNat) < 32 := by
      by_cases hge : (0x1F : Int) ≤ n
      · rw [if_pos hge]; omega
      · rw [if_neg hge, Int.emod_eq_of_lt hw'.1 (by omega)]; omega
    have hb := identifier_bits Class.ContextSpecific.toNat (class_toNat_lt _)
      fl.toNat (flavor_toNat_lt _) _ hm
    simp only [Number.class] at *
    rw [write_identifiers]
    rw [read_identifiers]
    simp only [List.cons_append, List.append_assoc, TrackedRead.readU8]
    rw [show ∀ x : Int, (if x ≥ 0x1F then (0x1F : Nat) else (x % 256).toNat) =
      (if 0x1F ≤ x then (0x1F : Nat) else (x % 256).toNat) from fun x => rfl]
    rw [hb.1, hb.2.1, hb.2.2, class_fromPrim_toNat, flavor_fromPrim_toNat]
    dsimp only
    rw [maybe_read_write_extended_number n hw'.1 hw'.2 rest (p + 1)]
    dsimp only
    rw [show Int.ofNat n.toNat = n by
      rw [Int.ofNat_eq_natCast]; exact Int.toNat_of_nonneg hw'.1]
    simp only [List.length_cons]
    rw [show p + 1 + (maybe_write_extended_number n).length =
      p + ((maybe_write_extended_number n).length + 1) by omega]
  | Private n =>
    have hw' : 0 ≤ n ∧ n < 2 ^ 56 := by
      simpa [Number.wfB, decide_eq_true_eq] using hw
    have hm : (if (0x1F : Int) ≤ n then (0x1F : Nat) else (n % 256).toNat) < 32 := by
      by_cases hge : (0x1F : Int) ≤ n
      · rw [if_pos hge]; omega
      · rw [if_neg hge, Int.emod_eq_of_lt hw'.1 (by omega)]; omega
    have hb := identifier_bits Class.Private.toNat (class_toNat_lt _)
      fl.toNat (flavor_toNat_lt _) _ hm
    simp only [Number.class] at *
    rw [write_identifiers]
    rw [read_identifiers]
    simp only [List.cons_append, List.append_assoc, TrackedRead.readU8]
    rw [show ∀ x : Int, (if x ≥ 0x1F then (0x1F : Nat) else (x % 256).toNat) =
      (if 0x1F ≤ x then (0x1F : Nat) else (x % 256).toNat) from fun x => rfl]
    rw [hb.1, hb.2.1, hb.2.2, class_fromPrim_toNat, flavor_fromPrim_toNat]
    dsimp only
    rw [maybe_read_write_extended_number n hw'.1 hw'.2 rest (p + 1)]
    dsimp only
    rw [show Int.ofNat n.toNat = n by
      rw [Int.ofNat_eq_natCast]; exact Int.toNat_of_nonneg hw'.1]
    simp only [List.length_cons]
    rw [show p + 1 + (maybe_write_extended_number n).length =
      p + ((maybe_write_extended_number n).length + 1) by omega]

/-- A 7-bit value plus 128 has exactly the continuation bit over its low
bits: masking with `0x80` yields `0x80`. -/
theorem and_80_of_add_eq (y : Nat) (hy : y < 128) : (y + 128) &&& 0x80 = 0x80 := by
  have ht : (y + 128).testBit 7 = true := by
    have h1 : y + 128 = 2 ^ 7 * 1 + y := by ring
    rw [h1, Nat.testBit_mul_pow_two_add 1 (by norm_num; exact hy) 7]
    simp
  have h2 := Nat.and_two_pow (y + 128) 7
  rw [ht] at h2
  norm_num at h2
  exact h2

/-- Reading the indefinite-length byte. -/
theorem read_length_indefinite (rest : List Nat) (p : Nat) :
    read_length ⟨0x80 :: rest, p⟩ = .ok .Indefinite ⟨rest, p + 1⟩ := rfl

/-- The long-form read loop inverts the long-form byte loop: starting from
an accumulator with `8 * k` clear low bits, the `k` big-endian digit bytes
of `l` accumulate to `l mod 256 ^ k`. -/
theorem read_write_length_loop (l : Nat) :
    ∀ (k ret : Nat) (rest : List Nat) (p : Nat),
      ret % 2 ^ (8 * k) = 0 →
      read_length_loop k ret ⟨write_length_bytes l k ++ rest, p⟩ =
        .ok (ret + l % 2 ^ (8 * k)) ⟨rest, p + k⟩ := by
  intro k
  induction k with
  | zero =>
    intro ret rest p _
    rw [write_length_bytes_eq]
    simp [read_length_loop, Nat.mod_one]
  | succ k ih =>
    intro ret rest p hret
    have hsplit : write_length_bytes l (k + 1) =
        (l / 256 ^ k % 256) :: write_length_bytes l k := by
      rw [write_length_bytes_eq, write_length_bytes_eq, List.range_succ]
      simp
    rw [hsplit, List.cons_append, read_length_loop]
    simp only [TrackedRead.readU8]
    have hor : ret ||| ((l / 256 ^ k % 256) <<< (k * 8)) =
        ret + (l / 256 ^ k % 256) * 2 ^ (8 * k) := by
      have h := lor_shiftLeft_eq_add' (a := ret) (d := l / 256 ^ k % 256) (8 * k) 8
        (by rw [show 8 * k + 8 = 8 * (k + 1) by ring]; exact hret)
        (by have := Nat.mod_lt (l / 256 ^ k) (show 0 < 256 by norm_num); norm_num; omega)
      rw [show k * 8 = 8 * k by ring]
      exact h
    rw [hor]
    have hnext : (ret + (l / 256 ^ k % 256) * 2 ^ (8 * k)) % 2 ^ (8 * k) = 0 := by
      rw [Nat.add_mul_mod_self_right]
      have hdvd : 2 ^ (8 * k) ∣ 2 ^ (8 * (k + 1)) :=
        pow_dvd_pow 2 (by omega)
      exact (Nat.mod_eq_zero_of_dvd (Nat.dvd_trans hdvd (Nat.dvd_of_mod_eq_zero hret)))
    rw [ih (ret + (l / 256 ^ k % 256) * 2 ^ (8 * k)) rest (p + 1) hnext]
    have hval : ret + (l / 256 ^ k % 256) * 2 ^ (8 * k) + l % 2 ^ (8 * k) =
        ret + l % 2 ^ (8 * (k + 1)) := by
      have h2 : (2 : Nat) ^ (8 * k) = 256 ^ k := by
        rw [show (256 : Nat) = 2 ^ 8 by norm_num, ← pow_mul]
      have h3 : (2 : Nat) ^ (8 * (k + 1)) = 256 ^ k * 256 := by
        rw [show (256 : Nat) = 2 ^ 8 by norm_num, ← pow_mul, ← pow_add]
        congr 1
      rw [h2, h3, Nat.mod_mul]
      ring
    rw [hval]
    congr 2
    omega

/-- Reading back a definite length written by `write_length` recovers the
value and consumes exactly the written bytes (any `u64` value). -/
theorem read_write_length (l : Nat) (hl : l < 2 ^ 64) (rest : List Nat) (p : Nat) :
    read_length ⟨write_length (.Some l) ++ rest, p⟩ =
      .ok (.Some l) ⟨rest, p + (write_length (.Some l)).length⟩ := by
  by_cases hsf : l < 0x1F
  · rw [write_length, if_pos hsf, List.cons_append, List.nil_append, read_length]
    simp only [TrackedRead.readU8]
    rw [if_neg (by omega)]
    have : l &&& 0x80 = 0 := and_80_of_lt l (by omega)
    rw [if_neg (by omega)]
    simp
  · obtain ⟨k, hk, hk1, hup, hlo⟩ := write_length_count_spec l 0
    rw [Nat.zero_add] at hk
    have hl0 : ¬ l = 0 := by omega
    have hlo' : 256 ^ (k - 1) ≤ l := by tauto
    have hk8 : k ≤ 8 := by
      by_contra hgt
      have h8 : (256 : Nat) ^ 8 ≤ 256 ^ (k - 1) := Nat.pow_le_pow_right (by norm_num) (by omega)
      have : (256 : Nat) ^ 8 = 2 ^ 64 := by norm_num
      omega
    have hklt : k < 128 := by omega
    rw [write_length, if_neg hsf, hk, List.cons_append, read_length]
    simp only [TrackedRead.readU8]
    rw [lor_80 k hklt]
    rw [if_neg (by omega), if_pos (and_80_of_add_eq k hklt)]
    have hand : (k + 128) &&& 0x7F = k := by
      rw [and_7f, Nat.add_mod_right, Nat.mod_eq_of_lt hklt]
    rw [hand, if_neg (by omega)]
    have hloop := read_write_length_loop l k 0 rest (p + 1) (by simp)
    rw [Nat.zero_add] at hloop
    rw [hloop]
    have hmod : l % 2 ^ (8 * k) = l := by
      apply Nat.mod_eq_of_lt
      calc l < 256 ^ k := hup
      _ = 2 ^ (8 * k) := by
            rw [show (256 : Nat) = 2 ^ 8 by norm_num, ← pow_mul]
    rw [hmod]
    simp only [List.length_cons]
    congr 2
    rw [write_length_bytes_eq]
    simp
    omega

/-- One `read` call for a primitive payload of declared length equal to the
byte run present at the head of the input consumes exactly that run. -/
theorem readInto_exact (v rest : List Nat) (p : Nat) :
    TrackedRead.readInto v.length ⟨v ++ rest, p⟩ = (v, ⟨rest, p + v.length⟩) := by
  rw [TrackedRead.readInto]
  simp [List.take_left, List.drop_left]

/-- Shape of `Tag::write` on a primitive tag. -/
theorem Tag.write_primitive (num : Number) (off : Option Nat) (v : List Nat) :
    Tag.write (.mk num off (.Primitive v)) =
      write_identifiers num.class .Primitive num ++
        (write_length (.Some v.length) ++ v) := by
  rw [Tag.write]
  simp [write_payload]

/-- Shape of `Tag::write` on a constructed tag: indefinite framing with the
End-of-Contents terminator. -/
theorem Tag.write_constructed (num : Number) (off : Option Nat) (cs : List Tag) :
    Tag.write (.mk num off (.Constructed cs)) =
      write_identifiers num.class .Constructed num ++
        (0x80 :: (write_tags cs ++ [0x00, 0x00])) := by
  rw [Tag.write]
  simp [write_payload, write_length]

/-- `write_tags` distributes over cons. -/
theorem write_tags_cons (c : Tag) (cs : List Tag) :
    write_tags (c :: cs) = Tag.write c ++ write_tags cs := by
  rw [write_tags]

/-- Offset erasure keeps the number. -/
theorem Tag.number_eraseOffsets (t : Tag) : t.eraseOffsets.number = t.number := by
  cases t with
  | mk num off pl => rw [Tag.eraseOffsets]; rfl

/-- Offset erasure on a cons of children. -/
theorem eraseOffsetsTags_cons (c : Tag) (cs : List Tag) :
    eraseOffsetsTags (c :: cs) = c.eraseOffsets :: eraseOffsetsTags cs := by
  rw [eraseOffsetsTags]

/-- `Tag::write` never reads the offsets: writing an offset-erased tag gives
the same bytes. -/
theorem write_eraseOffsets_all :
    ∀ n : Nat,
      (∀ t : Tag, sizeOf t ≤ n → Tag.write t.eraseOffsets = Tag.write t) ∧
      (∀ cs : List Tag, sizeOf cs ≤ n →
        write_tags (eraseOffsetsTags cs) = write_tags cs) := by
  intro n
  induction n using Nat.strong_induction_on with
  | _ n ih =>
    constructor
    · intro t ht
      match t with
      | .mk num off pl =>
        cases pl with
        | Primitive v =>
          rw [Tag.eraseOffsets, Payload.eraseOffsets, Tag.write_primitive,
            Tag.write_primitive]
        | Constructed cs =>
          have hlt : sizeOf cs < n := by
            have h1 := Tag.mk.sizeOf_spec num off (Payload.Constructed cs)
            have h2 := Payload.Constructed.sizeOf_spec cs
            have h3 : 0 < sizeOf num := by cases num <;> simp
            omega
          rw [Tag.eraseOffsets, Payload.eraseOffsets, Tag.write_constructed,
            Tag.write_constructed, (ih (sizeOf cs) hlt).2 cs (le_refl _)]
    · intro cs hcs
      match cs with
      | [] => rw [eraseOffsetsTags]
      | c :: cs' =>
        have hc : sizeOf c < n := by
          have h1 := List.cons.sizeOf_spec c cs'
          omega
        have hcs' : sizeOf cs' < n := by
          have h1 := List.cons.sizeOf_spec c cs'
          have h2 : 0 < sizeOf c := by
            match c with
            | .mk num off pl => have := Tag.mk.sizeOf_spec num off pl; omega
          omega
        rw [eraseOffsetsTags_cons, write_tags_cons, write_tags_cons,
          (ih (sizeOf c) hc).1 c (le_refl _), (ih (sizeOf cs') hcs').2 cs' (le_refl _)]

/-- `Tag::write` never reads the offsets. -/
theorem Tag.write_eraseOffsets (t : Tag) : Tag.write t.eraseOffsets = Tag.write t :=
  (write_eraseOffsets_all (sizeOf t)).1 t (le_refl _)

mutual
/-- Fuel sufficient for `Tag.inner_read` to decode the encoding of a tag:
two frames for the header plus the payload's needs. -/
def fuelOfTag : Tag → Nat
  | .mk _ _ pl => 2 + fuelOfPayload pl

/-- Fuel needed below the header; see `fuelOfTag`. -/
def fuelOfPayload : Payload → Nat
  | .Primitive _ => 1
  | .Constructed cs => fuelOfTags cs

/-- Fuel needed by the child loop (including the End-of-Contents read); see
`fuelOfTag`. -/
def fuelOfTags : List Tag → Nat
  | [] => 3
  | c :: cs => 1 + fuelOfTag c + fuelOfTags cs
end

/-- Decoding an End-of-Contents pair `00 00`: a `Universal(Eoc)` primitive
tag with empty payload, consuming the two bytes. -/
theorem inner_read_eoc (f p : Nat) (rest : List Nat) :
    Tag.inner_read (f + 2) ⟨0x00 :: 0x00 :: rest, p⟩ =
      .ok (.mk (.Universal .Eoc) (some p) (.Primitive [])) ⟨rest, p + 2⟩ := by
  rw [show f + 2 = (f + 1) + 1 by ring, Tag.inner_read]
  rw [show read_identifiers ⟨0x00 :: 0x00 :: rest, p⟩ =
    .ok (.Universal, .Primitive, .Universal .Eoc) ⟨0x00 :: rest, p + 1⟩ from rfl]
  dsimp only
  rw [show read_length ⟨0x00 :: rest, p + 1⟩ =
    .ok (.Some 0) ⟨rest, p + 2⟩ from rfl]
  dsimp only
  rw [if_neg (by simp), read_payload]
  dsimp only
  rw [show TrackedRead.readInto 0 ⟨rest, p + 2⟩ = ([], ⟨rest, p + 2⟩) by
    rw [TrackedRead.readInto]; simp]
  simp [TrackedRead.tell]

/-- Main inversion, proved by strong induction on size: decoding the
encoding of a well-formed tag (with arbitrary bytes appended) succeeds,
consumes exactly the encoding, and returns the tag up to freshly assigned
offsets; and the indefinite child loop decodes an encoded child list up to
its End-of-Contents pair the same way. -/
theorem read_write_tag_all :
    ∀ n : Nat,
      (∀ t : Tag, sizeOf t ≤ n → Tag.wfB t = true →
        ∀ (f : Nat) (rest : List Nat) (p : Nat),
          ∃ t' : Tag, t'.eraseOffsets = t.eraseOffsets ∧
            Tag.inner_read (fuelOfTag t + f) ⟨Tag.write t ++ rest, p⟩ =
              .ok t' ⟨rest, p + (Tag.write t).length⟩) ∧
      (∀ cs : List Tag, sizeOf cs ≤ n → wfTags cs = true →
        ∀ (f : Nat) (acc : List Tag) (start : Nat) (rest : List Nat) (p : Nat),
          ∃ cs' : List Tag, eraseOffsetsTags cs' = eraseOffsetsTags cs ∧
            read_payload_loop (fuelOfTags cs + f) .Indefinite start acc
              ⟨write_tags cs ++ 0x00 :: 0x00 :: rest, p⟩ =
              .ok (.Constructed (acc ++ cs')) ⟨rest, p + ((write_tags cs).length + 2)⟩) := by
  intro n
  induction n using Nat.strong_induction_on with
  | _ n ih =>
    constructor
    · rintro ⟨num, off, pl⟩ ht hw f rest p
      rw [Tag.wfB] at hw
      simp only [Bool.and_eq_true] at hw
      obtain ⟨hnum, hpl⟩ := hw
      cases pl with
      | Primitive v =>
        rw [Payload.wfB] at hpl
        simp only [Bool.and_eq_true, decide_eq_true_eq] at hpl
        refine ⟨.mk num (some p) (.Primitive v), ?_, ?_⟩
        · rw [Tag.eraseOffsets, Tag.eraseOffsets]
        · rw [show fuelOfTag (.mk num off (.Primitive v)) + f = (f + 2) + 1 by
            rw [fuelOfTag, fuelOfPayload]; ring]
          rw [Tag.inner_read, Tag.write_primitive]
          rw [show (write_identifiers num.class .Primitive num ++
              (write_length (.Some v.length) ++ v)) ++ rest =
              write_identifiers num.class .Primitive num ++
              (write_length (.Some v.length) ++ (v ++ rest)) by simp]
          rw [read_write_identifiers num.class .Primitive num rfl hnum _ p]
          try dsimp only
          rw [read_write_length v.length hpl.1 (v ++ rest) _]
          try dsimp only
          rw [if_neg (by simp)]
          rw [show f + 2 = (f + 1) + 1 from rfl, read_payload]
          try dsimp only
          rw [readInto_exact v rest _]
          try dsimp only
          simp only [TrackedRead.tell, DRes.ok.injEq, TrackedRead.mk.injEq,
            List.length_append, true_and, and_true, eq_self_iff_true]
          omega
      | Constructed cs =>
        rw [Payload.wfB] at hpl
        have hcs : sizeOf cs < n := by
          have h1 := Tag.mk.sizeOf_spec num off (Payload.Constructed cs)
          have h2 := Payload.Constructed.sizeOf_spec cs
          have h3 : 0 < sizeOf num := by cases num <;> simp
          omega
        obtain ⟨cs', hcse, hcseq⟩ := (ih (sizeOf cs) hcs).2 cs (le_refl _) hpl
          f [] (p + (write_identifiers num.class .Constructed num).length + 1)
          rest (p + (write_identifiers num.class .Constructed num).length + 1)
        refine ⟨.mk num (some p) (.Constructed cs'), ?_, ?_⟩
        · rw [Tag.eraseOffsets, Tag.eraseOffsets, Payload.eraseOffsets,
            Payload.eraseOffsets, hcse]
        · rw [show fuelOfTag (.mk num off (.Constructed cs)) + f =
              ((fuelOfTags cs + f) + 1) + 1 by rw [fuelOfTag, fuelOfPayload]; ring]
          rw [Tag.inner_read, Tag.write_constructed]
          rw [show (write_identifiers num.class .Constructed num ++
              (0x80 :: (write_tags cs ++ [0x00, 0x00]))) ++ rest =
              write_identifiers num.class .Constructed num ++
              (0x80 :: (write_tags cs ++ 0x00 :: 0x00 :: rest)) by simp]
          rw [read_write_identifiers num.class .Constructed num rfl hnum _ p]
          try dsimp only
          rw [read_length_indefinite]
          try dsimp only
          rw [if_neg (by simp), read_payload]
          try dsimp only
          rw [show (⟨write_tags cs ++ 0x00 :: 0x00 :: rest,
              p + (write_identifiers num.class .Constructed num).length + 1⟩ :
              TrackedRead).tell =
              p + (write_identifiers num.class .Constructed num).length + 1 from rfl]
          rw [hcseq]
          simp only [List.nil_append, DRes.ok.injEq, Tag.mk.injEq,
            TrackedRead.mk.injEq, TrackedRead.tell, Option.some.injEq,
            List.length_append, List.length_cons, List.length_nil, true_and,
            and_true, eq_self_iff_true]
          omega
    · intro cs hcs hwf f acc start rest p
      match cs with
      | [] =>
        refine ⟨[], rfl, ?_⟩
        rw [show fuelOfTags [] + f = (f + 2) + 1 by rw [fuelOfTags]; ring]
        rw [read_payload_loop]
        rw [show write_tags [] ++ 0x00 :: 0x00 :: rest = 0x00 :: 0x00 :: rest by
          rw [write_tags]; simp]
        rw [inner_read_eoc f p rest]
        try dsimp only
        rw [if_pos ⟨rfl, rfl⟩]
        rw [show write_tags ([] : List Tag) = [] from by rw [write_tags]]
        simp
      | c :: cs'' =>
        rw [wfTags] at hwf
        simp only [Bool.and_eq_true, bne_iff_ne] at hwf
        obtain ⟨⟨hne, hwc⟩, hwcs⟩ := hwf
        have hszc : sizeOf c < n := by
          have h1 := List.cons.sizeOf_spec c cs''
          omega
        have hszcs : sizeOf cs'' < n := by
          have h1 := List.cons.sizeOf_spec c cs''
          have h2 : 0 < sizeOf c := by
            match c with
            | .mk num off pl => have := Tag.mk.sizeOf_spec num off pl; omega
          omega
        obtain ⟨c₁, hc1e, hc1eq⟩ := (ih (sizeOf c) hszc).1 c (le_refl _) hwc
          (fuelOfTags cs'' + f) (write_tags cs'' ++ 0x00 :: 0x00 :: rest) p
        obtain ⟨cs₂, hcs2e, hcs2eq⟩ := (ih (sizeOf cs'') hszcs).2 cs'' (le_refl _)
          hwcs (fuelOfTag c + f) (acc ++ [c₁]) start rest (p + (Tag.write c).length)
        have hc1num : c₁.number = c.number := by
          have h1 := Tag.number_eraseOffsets c₁
          have h2 := Tag.number_eraseOffsets c
          rw [hc1e] at h1
          rw [h2] at h1
          exact h1.symm
        refine ⟨c₁ :: cs₂, ?_, ?_⟩
        · rw [eraseOffsetsTags_cons, eraseOffsetsTags_cons, hc1e, hcs2e]
        · rw [show fuelOfTags (c :: cs'') + f =
              (fuelOfTag c + fuelOfTags cs'' + f) + 1 by rw [fuelOfTags]; ring]
          rw [read_payload_loop]
          rw [write_tags_cons]
          rw [show (Tag.write c ++ write_tags cs'') ++ 0x00 :: 0x00 :: rest =
              Tag.write c ++ (write_tags cs'' ++ 0x00 :: 0x00 :: rest) by simp]
          rw [show fuelOfTag c + fuelOfTags cs'' + f =
              fuelOfTag c + (fuelOfTags cs'' + f) by ring]
          rw [hc1eq]
          try dsimp only
          rw [if_neg (by
            rintro ⟨h1, _⟩
            rw [hc1num] at h1
            exact hne h1)]
          rw [show fuelOfTag c + (fuelOfTags cs'' + f) =
              fuelOfTags cs'' + (fuelOfTag c + f) by ring]
          rw [hcs2eq]
          simp only [DRes.ok.injEq, Payload.Constructed.injEq, TrackedRead.mk.injEq,
            List.length_append, List.append_assoc, List.singleton_append,
            List.cons_append, List.nil_append, true_and, and_true,
            eq_self_iff_true]
          omega

/-- The identifier encoding is nonempty. -/
theorem write_identifiers_length_pos (cls : Class) (fl : Flavor) (num : Number) :
    0 < (write_identifiers cls fl num).length := by
  rw [write_identifiers.eq_def]
  simp

/-- The length encoding is nonempty. -/
theorem write_length_length_pos (L : Length) :
    0 < (write_length L).length := by
  cases L with
  | Indefinite => rw [write_length]; simp
  | Some l =>
    rw [write_length]
    by_cases h : l < 0x1F
    · rw [if_pos h]; simp
    · rw [if_neg h]; simp

/-- The fuel estimate is bounded by three times the encoding length. -/
theorem fuel_bound_all :
    ∀ n : Nat,
      (∀ t : Tag, sizeOf t ≤ n → fuelOfTag t + 2 ≤ 3 * (Tag.write t).length) ∧
      (∀ cs : List Tag, sizeOf cs ≤ n →
        fuelOfTags cs ≤ 3 * (write_tags cs).length + 3) := by
  intro n
  induction n using Nat.strong_induction_on with
  | _ n ih =>
    constructor
    · rintro ⟨num, off, pl⟩ ht
      cases pl with
      | Primitive v =>
        rw [fuelOfTag, fuelOfPayload, Tag.write_primitive]
        have h1 := write_identifiers_length_pos num.class .Primitive num
        have h2 := write_length_length_pos (.Some v.length)
        simp only [List.length_append]
        omega
      | Constructed cs =>
        have hcs : sizeOf cs < n := by
          have h1 := Tag.mk.sizeOf_spec num off (Payload.Constructed cs)
          have h2 := Payload.Constructed.sizeOf_spec cs
          have h3 : 0 < sizeOf num := by cases num <;> simp
          omega
        have hlist := (ih (sizeOf cs) hcs).2 cs (le_refl _)
        rw [fuelOfTag, fuelOfPayload, Tag.write_constructed]
        have h1 := write_identifiers_length_pos num.class .Constructed num
        simp only [List.length_append, List.length_cons, List.length_nil]
        omega
    · intro cs hcs
      match cs with
      | [] =>
        rw [fuelOfTags, write_tags]
        simp
      | c :: cs' =>
        have hszc : sizeOf c < n := by
          have h1 := List.cons.sizeOf_spec c cs'
          omega
        have hszcs : sizeOf cs' < n := by
          have h1 := List.cons.sizeOf_spec c cs'
          have h2 : 0 < sizeOf c := by
            match c with
            | .mk num off pl => have := Tag.mk.sizeOf_spec num off pl; omega
          omega
        have hc := (ih (sizeOf c) hszc).1 c (le_refl _)
        have hcs' := (ih (sizeOf cs') hszcs).2 cs' (le_refl _)
        rw [fuelOfTags, write_tags_cons]
        simp only [List.length_append]
        omega

/-- Top-level round trip: decoding the full encoding of any well-formed tag
consumes it entirely and returns a tag equal up to offsets, whose re-encoding
is byte-identical. -/
theorem tag_write_read (t : Tag) (hw : Tag.wfB t = true) :
    ∃ t' : Tag, t'.eraseOffsets = t.eraseOffsets ∧
      Tag.read ⟨Tag.write t, 0⟩ = .ok t' ⟨[], (Tag.write t).length⟩ ∧
      Tag.write t' = Tag.write t := by
  have hfb := (fuel_bound_all (sizeOf t)).1 t (le_refl _)
  obtain ⟨t', he, heq⟩ := (read_write_tag_all (sizeOf t)).1 t (le_refl _) hw
    (3 * (Tag.write t).length + 1 - fuelOfTag t) [] 0
  rw [List.append_nil, Nat.zero_add] at heq
  refine ⟨t', he, ?_, ?_⟩
  · rw [Tag.read]
    rw [show 3 * (TrackedRead.mk (Tag.write t) 0).input.length + 1 =
      fuelOfTag t + (3 * (Tag.write t).length + 1 - fuelOfTag t) by
        dsimp only
        omega]
    exact heq
  · calc Tag.write t' = Tag.write t'.eraseOffsets := (Tag.write_eraseOffsets t').symm
    _ = Tag.write t.eraseOffsets := by rw [he]
    _ = Tag.write t := Tag.write_eraseOffsets t

/-- C1 counterexample to the claim as stated: the byte sequence
`30 80 00 00 00 00` IS the `Tag::write` encoding (indefinite form) of a
`Sequence` whose single child is a `Universal(Eoc)` primitive tag; yet
decoding it stops at the first End-of-Contents pair, yielding an empty
`Sequence` with two bytes left unread, and re-encoding gives
`30 80 00 00` — not the original bytes. -/
theorem claim_C1_counterexample :
    Tag.write (.mk (.Universal .Sequence) none
      (.Constructed [.mk (.Universal .Eoc) none (.Primitive [])])) =
      [0x30, 0x80, 0x00, 0x00, 0x00, 0x00] ∧
    Tag.read ⟨[0x30, 0x80, 0x00, 0x00, 0x00, 0x00], 0⟩ =
      .ok (.mk (.Universal .Sequence) (some 0) (.Constructed [])) ⟨[0x00, 0x00], 4⟩ ∧
    Tag.write (.mk (.Universal .Sequence) (some 0) (.Constructed [])) =
      [0x30, 0x80, 0x00, 0x00] ∧
    ([0x30, 0x80, 0x00, 0x00] : List Nat) ≠ [0x30, 0x80, 0x00, 0x00, 0x00, 0x00] :=
  ⟨rfl, rfl, rfl, by decide⟩

/-- C1 (amended): for every byte sequence that is the `Tag::write` encoding
of a well-formed tag in indefinite (constructed) form — tag numbers of
non-universal classes in `[0, 2^56)`, primitive payloads genuine byte
vectors, and no constructed payload containing a `Universal(Eoc)`-numbered
child — decoding consumes the whole sequence and re-encoding reproduces it
exactly: `encode(decode(bytes)) = bytes`. -/
theorem claim_C1_amended (t : Tag) (hw : Tag.wfB t = true)
    (hcons : ∃ cs, t.payload = Payload.Constructed cs) :
    ∃ t' : Tag, Tag.read ⟨Tag.write t, 0⟩ = .ok t' ⟨[], (Tag.write t).length⟩ ∧
      Tag.write t' = Tag.write t := by
  obtain ⟨t', _, hread, hwrite⟩ := tag_write_read t hw
  exact ⟨t', hread, hwrite⟩

/-- Witness for C1 (amended) at the spec's end-to-end example tag. -/
theorem claim_C1_witness :
    ∃ t' : Tag,
      Tag.read ⟨Tag.write (.mk (.Universal .Sequence) none
        (.Constructed [.mk (.Universal .Utf8String) none
          (.Primitive [0x64, 0x65, 0x66])])), 0⟩ =
        .ok t' ⟨[], (Tag.write (.mk (.Universal .Sequence) none
          (.Constructed [.mk (.Universal .Utf8String) none
            (.Primitive [0x64, 0x65, 0x66])]))).length⟩ ∧
      Tag.write t' = Tag.write (.mk (.Universal .Sequence) none
        (.Constructed [.mk (.Universal .Utf8String) none
          (.Primitive [0x64, 0x65, 0x66])])) :=
  claim_C1_amended _ (by rfl) ⟨_, rfl⟩

/-- The extended-number loop accumulates at most `7 * (count + remaining)`
bits. -/
theorem read_extended_number_loop_lt :
    ∀ (remaining count ret : Nat) (r r' : TrackedRead) (v : Nat),
      ret < 2 ^ (7 * count) →
      read_extended_number_loop remaining count ret r = .ok v r' →
      v < 2 ^ (7 * (count + remaining)) := by
  intro remaining
  induction remaining with
  | zero =>
    intro count ret r r' v hret h
    rw [read_extended_number_loop] at h
    simp only [DRes.ok.injEq] at h
    rw [Nat.add_zero]
    omega
  | succ rem ih =>
    intro count ret r r' v hret h
    rw [read_extended_number_loop] at h
    cases hb : r.readU8 with
    | ok b r1 =>
      rw [hb] at h
      dsimp only at h
      have hor : ret ||| ((b &&& 0x7F) <<< (7 * count)) < 2 ^ (7 * (count + 1)) := by
        apply Nat.or_lt_two_pow
        · calc ret < 2 ^ (7 * count) := hret
          _ ≤ 2 ^ (7 * (count + 1)) := Nat.pow_le_pow_right (by norm_num) (by omega)
        · rw [and_7f, Nat.shiftLeft_eq]
          calc b % 128 * 2 ^ (7 * count) < 128 * 2 ^ (7 * count) := by
                have := Nat.mod_lt b (show 0 < 128 by norm_num)
                exact (Nat.mul_lt_mul_right (pow_pos (by norm_num) _)).mpr this
          _ = 2 ^ (7 * (count + 1)) := by
                rw [show 7 * (count + 1) = 7 + 7 * count by ring, pow_add]
                norm_num
      by_cases hc : b &&& 0x80 = 0
      · rw [if_pos hc] at h
        simp only [DRes.ok.injEq] at h
        calc v = ret ||| ((b &&& 0x7F) <<< (7 * count)) := h.1.symm
        _ < 2 ^ (7 * (count + 1)) := hor
        _ ≤ 2 ^ (7 * (count + (rem + 1))) := Nat.pow_le_pow_right (by norm_num) (by omega)
      · rw [if_neg hc] at h
        have := ih (count + 1) (ret ||| ((b &&& 0x7F) <<< (7 * count))) r1 r' v hor h
        calc v < 2 ^ (7 * (count + 1 + rem)) := this
        _ ≤ 2 ^ (7 * (count + (rem + 1))) := Nat.pow_le_pow_right (by norm_num) (by omega)
    | err k o r1 => rw [hb] at h; exact absurd h (by simp)
    | panicked => rw [hb] at h; exact absurd h (by simp)
    | fuelOut => rw [hb] at h; exact absurd h (by simp)

/-- Any number returned by `maybe_read_extended_number` from a 5-bit field
is below `2 ^ 56`. -/
theorem maybe_read_extended_number_lt (m : Nat) (hm : m < 32) (r r' : TrackedRead)
    (v : Nat) (h : maybe_read_extended_number m r = .ok v r') : v < 2 ^ 56 := by
  rw [maybe_read_extended_number] at h
  by_cases h31 : m = 0x1F
  · rw [if_pos h31, read_extended_number] at h
    have := read_extended_number_loop_lt 8 0 0 r r' v (by norm_num) h
    norm_num at this
    exact this
  · rw [if_neg h31] at h
    simp only [DRes.ok.injEq] at h
    omega

/-- Any successful `read_identifiers` returns a representable number whose
variant matches the decoded class. -/
theorem read_identifiers_ok_wf :
    ∀ (r r1 : TrackedRead) (cls : Class) (fl : Flavor) (num : Number),
      read_identifiers r = .ok (cls, fl, num) r1 →
      num.wfB = true ∧ cls = num.class := by
  intro r r1 cls fl num h
  obtain ⟨input, p⟩ := r
  match input with
  | [] =>
    rw [read_identifiers] at h
    exact absurd h (by simp [TrackedRead.readU8])
  | b :: tl =>
    rw [read_identifiers] at h
    simp only [TrackedRead.readU8] at h
    have hmlt : b &&& 0x1F < 32 := by
      have := Nat.and_le_right (n := b) (m := 0x1F)
      omega
    cases hcls : Class.fromPrim ((b &&& 0xC0) >>> 6) with
    | Universal =>
      rw [hcls] at h
      dsimp only at h
      by_cases h31 : b &&& 0x1F = 0x1F
      · rw [if_pos h31] at h
        exact absurd h (by simp)
      · rw [if_neg h31] at h
        cases hty : Ty.fromPrim (b &&& 0x1F) with
        | none => rw [hty] at h; exact absurd h (by simp)
        | some t =>
          rw [hty] at h
          simp only [DRes.ok.injEq, Prod.mk.injEq] at h
          obtain ⟨⟨hc, _, hn⟩, _⟩ := h
          subst hc
          subst hn
          exact ⟨rfl, rfl⟩
    | Application =>
      rw [hcls] at h
      dsimp only at h
      cases hread : maybe_read_extended_number (b &&& 0x1F) ⟨tl, p + 1⟩ with
      | ok v r2 =>
        rw [hread] at h
        simp only [DRes.ok.injEq, Prod.mk.injEq] at h
        obtain ⟨⟨hc, _, hn⟩, _⟩ := h
        subst hc
        subst hn
        have hv := maybe_read_extended_number_lt _ hmlt _ _ _ hread
        refine ⟨?_, rfl⟩
        rw [Number.wfB]
        simp only [Bool.and_eq_true, decide_eq_true_eq, Int.ofNat_eq_natCast]
        omega
      | err k o r2 => rw [hread] at h; exact absurd h (by simp)
      | panicked => rw [hread] at h; exact absurd h (by simp)
      | fuelOut => rw [hread] at h; exact absurd h (by simp)
    | ContextSpecific =>
      rw [hcls] at h
      dsimp only at h
      cases hread : maybe_read_extended_number (b &&& 0x1F) ⟨tl, p + 1⟩ with
      | ok v r2 =>
        rw [hread] at h
        simp only [DRes.ok.injEq, Prod.mk.injEq] at h
        obtain ⟨⟨hc, _, hn⟩, _⟩ := h
        subst hc
        subst hn
        have hv := maybe_read_extended_number_lt _ hmlt _ _ _ hread
        refine ⟨?_, rfl⟩
        rw [Number.wfB]
        simp only [Bool.and_eq_true, decide_eq_true_eq, Int.ofNat_eq_natCast]
        omega
      | err k o r2 => rw [hread] at h; exact absurd h (by simp)
      | panicked => rw [hread] at h; exact absurd h (by simp)
      | fuelOut => rw [hread] at h; exact absurd h (by simp)
    | Private =>
      rw [hcls] at h
      dsimp only at h
      cases hread : maybe_read_extended_number (b &&& 0x1F) ⟨tl, p + 1⟩ with
      | ok v r2 =>
        rw [hread] at h
        simp only [DRes.ok.injEq, Prod.mk.injEq] at h
        obtain ⟨⟨hc, _, hn⟩, _⟩ := h
        subst hc
        subst hn
        have hv := maybe_read_extended_number_lt _ hmlt _ _ _ hread
        refine ⟨?_, rfl⟩
        rw [Number.wfB]
        simp only [Bool.and_eq_true, decide_eq_true_eq, Int.ofNat_eq_natCast]
        omega
      | err k o r2 => rw [hread] at h; exact absurd h (by simp)
      | panicked => rw [hread] at h; exact absurd h (by simp)
      | fuelOut => rw [hread] at h; exact absurd h (by simp)

/-- C2: `Tag::write` derives the advertised length from the payload variant
— primitive payloads are written with `Definite(len)` (first conjunct),
constructed payloads always in indefinite form `0x80 … children … 00 00`
(second conjunct); consequently re-encoding a constructed tag that was
decoded from a definite-length outer framing can never reproduce the
original bytes (third conjunct: any run of the decoder whose outer length
parse returned `Definite l` with constructed flavor yields a tag whose
re-encoding differs from the input). -/
theorem claim_C2_write_indefinite_asymmetry :
    (∀ (num : Number) (off : Option Nat) (v : List Nat),
       Tag.write (.mk num off (.Primitive v)) =
         write_identifiers num.class .Primitive num ++
           (write_length (.Some v.length) ++ v)) ∧
    (∀ (num : Number) (off : Option Nat) (cs : List Tag),
       Tag.write (.mk num off (.Constructed cs)) =
         write_identifiers num.class .Constructed num ++
           (0x80 :: (write_tags cs ++ [0x00, 0x00]))) ∧
    (∀ (b : List Nat) (cls : Class) (num : Number) (l fuel : Nat)
       (r1 r2 r3 : TrackedRead) (pl : Payload) (off : Option Nat),
       read_identifiers ⟨b, 0⟩ = .ok (cls, .Constructed, num) r1 →
       read_length r1 = .ok (.Some l) r2 →
       read_payload fuel (.Some l) .Constructed r2 = .ok pl r3 →
       Tag.write (.mk num off pl) ≠ b) := by
  refine ⟨Tag.write_primitive, Tag.write_constructed, ?_⟩
  intro b cls num l fuel r1 r2 r3 pl off h1 h2 h3
  obtain ⟨hnum, _⟩ := read_identifiers_ok_wf _ _ _ _ _ h1
  obtain ⟨ll, hpl⟩ : ∃ llist, pl = .Constructed llist := by
    cases fuel with
    | zero => rw [read_payload] at h3; exact absurd h3 (by simp)
    | succ g =>
      rw [read_payload] at h3
      obtain ⟨llist, hpl, -⟩ := read_payload_loop_some_grows g l r2.tell [] r2 pl r3 h3
      exact ⟨llist, hpl⟩
  subst hpl
  intro heq
  rw [Tag.write_constructed] at heq
  have hW := read_write_identifiers num.class .Constructed num rfl hnum
    (0x80 :: (write_tags ll ++ [0x00, 0x00])) 0
  rw [heq, h1] at hW
  simp only [DRes.ok.injEq, Prod.mk.injEq] at hW
  obtain ⟨-, hr1⟩ := hW
  rw [hr1, read_length_indefinite] at h2
  simp at h2

/-- Witness for C2's asymmetry conjunct at the definite-form input
`30 05 0C 03 64 65 66`. -/
theorem claim_C2_witness :
    Tag.write (.mk (.Universal .Sequence) (some 0)
      (.Constructed [.mk (.Universal .Utf8String) (some 2)
        (.Primitive [0x64, 0x65, 0x66])])) ≠
      [0x30, 0x05, 0x0C, 0x03, 0x64, 0x65, 0x66] :=
  claim_C2_write_indefinite_asymmetry.2.2
    [0x30, 0x05, 0x0C, 0x03, 0x64, 0x65, 0x66] .Universal (.Universal .Sequence)
    5 20 ⟨[0x05, 0x0C, 0x03, 0x64, 0x65, 0x66], 1⟩
    ⟨[0x0C, 0x03, 0x64, 0x65, 0x66], 2⟩ ⟨[], 7⟩
    (.Constructed [.mk (.Universal .Utf8String) (some 2)
      (.Primitive [0x64, 0x65, 0x66])]) (some 0) rfl rfl rfl

/-- The extended-number encoding of `2 ^ 56` uses nine bytes: eight
continuation bytes and a final `01`. -/
theorem write_extended_number_pos_two_pow_56 :
    write_extended_number_pos (2 ^ 56) =
      [0x80, 0x80, 0x80, 0x80, 0x80, 0x80, 0x80, 0x80, 0x01] := by
  rw [write_extended_number_pos, dif_pos (show (0 : Nat) < 2 ^ 56 by norm_num),
    show (2 : Nat) ^ 56 >>> 7 = 2 ^ 49 from by decide,
    if_pos (show (2 : Nat) ^ 49 ≠ 0 by norm_num),
    show ((2 : Nat) ^ 56 &&& 0x7F) ||| 0x80 = 0x80 from by decide]
  rw [write_extended_number_pos, dif_pos (show (0 : Nat) < 2 ^ 49 by norm_num),
    show (2 : Nat) ^ 49 >>> 7 = 2 ^ 42 from by decide,
    if_pos (show (2 : Nat) ^ 42 ≠ 0 by norm_num),
    show ((2 : Nat) ^ 49 &&& 0x7F) ||| 0x80 = 0x80 from by decide]
  rw [write_extended_number_pos, dif_pos (show (0 : Nat) < 2 ^ 42 by norm_num),
    show (2 : Nat) ^ 42 >>> 7 = 2 ^ 35 from by decide,
    if_pos (show (2 : Nat) ^ 35 ≠ 0 by norm_num),
    show ((2 : Nat) ^ 42 &&& 0x7F) ||| 0x80 = 0x80 from by decide]
  rw [write_extended_number_pos, dif_pos (show (0 : Nat) < 2 ^ 35 by norm_num),
    show (2 : Nat) ^ 35 >>> 7 = 2 ^ 28 from by decide,
    if_pos (show (2 : Nat) ^ 28 ≠ 0 by norm_num),
    show ((2 : Nat) ^ 35 &&& 0x7F) ||| 0x80 = 0x80 from by decide]
  rw [write_extended_number_pos, dif_pos (show (0 : Nat) < 2 ^ 28 by norm_num),
    show (2 : Nat) ^ 28 >>> 7 = 2 ^ 21 from by decide,
    if_pos (show (2 : Nat) ^ 21 ≠ 0 by norm_num),
    show ((2 : Nat) ^ 28 &&& 0x7F) ||| 0x80 = 0x80 from by decide]
  rw [write_extended_number_pos, dif_pos (show (0 : Nat) < 2 ^ 21 by norm_num),
    show (2 : Nat) ^ 21 >>> 7 = 2 ^ 14 from by decide,
    if_pos (show (2 : Nat) ^ 14 ≠ 0 by norm_num),
    show ((2 : Nat) ^ 21 &&& 0x7F) ||| 0x80 = 0x80 from by decide]
  rw [write_extended_number_pos, dif_pos (show (0 : Nat) < 2 ^ 14 by norm_num),
    show (2 : Nat) ^ 14 >>> 7 = 2 ^ 7 from by decide,
    if_pos (show (2 : Nat) ^ 7 ≠ 0 by norm_num),
    show ((2 : Nat) ^ 14 &&& 0x7F) ||| 0x80 = 0x80 from by decide]
  rw [write_extended_number_pos, dif_pos (show (0 : Nat) < 2 ^ 7 by norm_num),
    show (2 : Nat) ^ 7 >>> 7 = 2 ^ 0 from by decide,
    if_pos (show (2 : Nat) ^ 0 ≠ 0 by norm_num),
    show ((2 : Nat) ^ 7 &&& 0x7F) ||| 0x80 = 0x80 from by decide]
  rw [show (2 : Nat) ^ 0 = 1 from by norm_num]
  rw [write_extended_number_pos, dif_pos (show (0 : Nat) < 1 by norm_num),
    show (1 : Nat) >>> 7 = 0 from by decide]
  rw [if_neg (show ¬ (0 : Nat) ≠ 0 by omega),
    show (1 : Nat) &&& 0x7F = 1 from by decide, write_extended_number_pos_zero]

/-- Below the escape value, a `Application` number is written inline in the
5-bit field. -/
theorem write_identifiers_Application_inline (fl : Flavor) (n : Int)
    (h0 : 0 ≤ n) (h1 : n < 0x1F) :
    write_identifiers .Application fl (.Application n) =
      [(Class.Application.toNat <<< 6) ||| (fl.toNat <<< 5) ||| n.toNat] := by
  rw [write_identifiers.eq_def]
  dsimp only
  rw [if_neg (by omega), maybe_write_extended_number, if_neg (by omega),
    Int.emod_eq_of_lt h0 (by omega)]

/-- From the escape value upward, a `Application` number is written as the
`0x1F` escape followed by the nonempty extended-number bytes. -/
theorem write_identifiers_Application_escape (fl : Flavor) (n : Int)
    (hge : 0x1F ≤ n) :
    write_identifiers .Application fl (.Application n) =
      ((Class.Application.toNat <<< 6) ||| (fl.toNat <<< 5) ||| 0x1F)
        :: write_extended_number n ∧
    write_extended_number n ≠ [] := by
  constructor
  · rw [write_identifiers.eq_def]
    dsimp only
    rw [if_pos (by omega), maybe_write_extended_number, if_pos (by omega)]
  · rw [write_extended_number, write_extended_number_pos_eq _ (by omega)]
    simp

/-- Below the escape value, a `ContextSpecific` number is written inline in the
5-bit field. -/
theorem write_identifiers_ContextSpecific_inline (fl : Flavor) (n : Int)
    (h0 : 0 ≤ n) (h1 : n < 0x1F) :
    write_identifiers .ContextSpecific fl (.ContextSpecific n) =
      [(Class.ContextSpecific.toNat <<< 6) ||| (fl.toNat <<< 5) ||| n.toNat] := by
  rw [write_identifiers.eq_def]
  dsimp only
  rw [if_neg (by omega), maybe_write_extended_number, if_neg (by omega),
    Int.emod_eq_of_lt h0 (by omega)]

/-- From the escape value upward, a `ContextSpecific` number is written as the
`0x1F` escape followed by the nonempty extended-number bytes. -/
theorem write_identifiers_ContextSpecific_escape (fl : Flavor) (n : Int)
    (hge : 0x1F ≤ n) :
    write_identifiers .ContextSpecific fl (.ContextSpecific n) =
      ((Class.ContextSpecific.toNat <<< 6) ||| (fl.toNat <<< 5) ||| 0x1F)
        :: write_extended_number n ∧
    write_extended_number n ≠ [] := by
  constructor
  · rw [write_identifiers.eq_def]
    dsimp only
    rw [if_pos (by omega), maybe_write_extended_number, if_pos (by omega)]
  · rw [write_extended_number, write_extended_number_pos_eq _ (by omega)]
    simp

/-- Below the escape value, a `Private` number is written inline in the
5-bit field. -/
theorem write_identifiers_Private_inline (fl : Flavor) (n : Int)
    (h0 : 0 ≤ n) (h1 : n < 0x1F) :
    write_identifiers .Private fl (.Private n) =
      [(Class.Private.toNat <<< 6) ||| (fl.toNat <<< 5) ||| n.toNat] := by
  rw [write_identifiers.eq_def]
  dsimp only
  rw [if_neg (by omega), maybe_write_extended_number, if_neg (by omega),
    Int.emod_eq_of_lt h0 (by omega)]

/-- From the escape value upward, a `Private` number is written as the
`0x1F` escape followed by the nonempty extended-number bytes. -/
theorem write_identifiers_Private_escape (fl : Flavor) (n : Int)
    (hge : 0x1F ≤ n) :
    write_identifiers .Private fl (.Private n) =
      ((Class.Private.toNat <<< 6) ||| (fl.toNat <<< 5) ||| 0x1F)
        :: write_extended_number n ∧
    write_extended_number n ≠ [] := by
  constructor
  · rw [write_identifiers.eq_def]
    dsimp only
    rw [if_pos (by omega), maybe_write_extended_number, if_pos (by omega)]
  · rw [write_extended_number, write_extended_number_pos_eq _ (by omega)]
    simp

/-- C5 counterexample to the claim as stated: the tag number `2 ^ 56`
(non-universal, here context-specific) encodes as the escape byte `9F`
followed by nine extended-number bytes, but decoding that encoding yields
the number 0 — not `2 ^ 56` — and leaves the final byte unread. -/
theorem claim_C5_counterexample :
    write_identifiers .ContextSpecific .Primitive (.ContextSpecific (2 ^ 56)) =
      [0x9F, 0x80, 0x80, 0x80, 0x80, 0x80, 0x80, 0x80, 0x80, 0x01] ∧
    read_identifiers
      ⟨[0x9F, 0x80, 0x80, 0x80, 0x80, 0x80, 0x80, 0x80, 0x80, 0x01], 0⟩ =
      .ok (.ContextSpecific, .Primitive, .ContextSpecific 0) ⟨[0x01], 9⟩ ∧
    Number.ContextSpecific 0 ≠ Number.ContextSpecific (2 ^ 56) := by
  refine ⟨?_, rfl, by decide⟩
  rw [write_identifiers.eq_def]
  dsimp only
  rw [if_pos (by norm_num), maybe_write_extended_number, if_pos (by norm_num),
    write_extended_number, show ((2 ^ 56 : Int)).toNat = 2 ^ 56 from by decide,
    write_extended_number_pos_two_pow_56]
  rfl

/-- C5 (amended): for every non-universal tag number `n` with
`0 ≤ n < 2 ^ 56`, numbers below `0x1F` are encoded inline in the 5-bit
field, numbers from `0x1F` upward use the `0x1F` escape followed by the
(nonempty) continuation-bit extended bytes, and decoding the encoded
identifier recovers exactly `n` for each non-universal class.  (The bound
`n < 2 ^ 56` is forced by the counterexample: the decoder accumulates at
most eight 7-bit groups.) -/
theorem claim_C5_amended (fl : Flavor) (n : Int) (h0 : 0 ≤ n) (h56 : n < 2 ^ 56) :
    (n < 0x1F →
      write_identifiers .ContextSpecific fl (.ContextSpecific n) =
        [(Class.ContextSpecific.toNat <<< 6) ||| (fl.toNat <<< 5) ||| n.toNat]) ∧
    (0x1F ≤ n →
      write_identifiers .ContextSpecific fl (.ContextSpecific n) =
        ((Class.ContextSpecific.toNat <<< 6) ||| (fl.toNat <<< 5) ||| 0x1F)
          :: write_extended_number n ∧
      write_extended_number n ≠ []) ∧
    (∀ (rest : List Nat) (p : Nat),
      read_identifiers ⟨write_identifiers .Application fl (.Application n) ++ rest, p⟩ =
        .ok (.Application, fl, .Application n)
          ⟨rest, p + (write_identifiers .Application fl (.Application n)).length⟩) ∧
    (∀ (rest : List Nat) (p : Nat),
      read_identifiers ⟨write_identifiers .ContextSpecific fl (.ContextSpecific n) ++ rest, p⟩ =
        .ok (.ContextSpecific, fl, .ContextSpecific n)
          ⟨rest, p + (write_identifiers .ContextSpecific fl (.ContextSpecific n)).length⟩) ∧
    (∀ (rest : List Nat) (p : Nat),
      read_identifiers ⟨write_identifiers .Private fl (.Private n) ++ rest, p⟩ =
        .ok (.Private, fl, .Private n)
          ⟨rest, p + (write_identifiers .Private fl (.Private n)).length⟩) := by
  have hwA : (Number.Application n).wfB = true := by
    rw [Number.wfB]
    simp only [Bool.and_eq_true, decide_eq_true_eq]
    exact ⟨h0, h56⟩
  have hwC : (Number.ContextSpecific n).wfB = true := by
    rw [Number.wfB]
    simp only [Bool.and_eq_true, decide_eq_true_eq]
    exact ⟨h0, h56⟩
  have hwP : (Number.Private n).wfB = true := by
    rw [Number.wfB]
    simp only [Bool.and_eq_true, decide_eq_true_eq]
    exact ⟨h0, h56⟩
  refine ⟨fun h1 => write_identifiers_ContextSpecific_inline fl n h0 h1,
    fun hge => write_identifiers_ContextSpecific_escape fl n hge,
    fun rest p => read_write_identifiers .Application fl (.Application n) rfl hwA rest p,
    fun rest p => read_write_identifiers .ContextSpecific fl (.ContextSpecific n) rfl hwC rest p,
    fun rest p => read_write_identifiers .Private fl (.Private n) rfl hwP rest p⟩

/-- Witness for C5 (amended) at `n = 5` (inline) and `n = 0x7F` (escape). -/
theorem claim_C5_witness :
    (write_identifiers .ContextSpecific .Primitive (.ContextSpecific 5) =
      [(Class.ContextSpecific.toNat <<< 6) ||| (Flavor.Primitive.toNat <<< 5) ||| (5 : Int).toNat]) ∧
    read_identifiers ⟨write_identifiers .ContextSpecific .Primitive
        (.ContextSpecific 0x7F) ++ [0xAB], 3⟩ =
      .ok (.ContextSpecific, .Primitive, .ContextSpecific 0x7F)
        ⟨[0xAB], 3 + (write_identifiers .ContextSpecific .Primitive
          (.ContextSpecific 0x7F)).length⟩ :=
  ⟨(claim_C5_amended .Primitive 5 (by norm_num) (by norm_num)).1 (by norm_num),
   (claim_C5_amended .Primitive 0x7F (by norm_num) (by norm_num)).2.2.2.1 [0xAB] 3⟩

end Ber
